import Mathlib

/-!
Shallow embedding of the Contextify source-graph core:
the graph builder (src/graph_builder.py) and the query layer
(src/api/graph_api.py).  Definitions mirror the Python source; theorems
settle the specification claims about them.
-/

/-! ## Data model of the query layer (graph_api.py)

A tag is one record of the node-record stream (tags.json), as read back by
GraphAPI.load.  The loaded graph is a directed graph whose nodes carry the
attribute dictionary written by the builder. -/

/-- One node record, mirroring the JSONL dict written by GraphBuilder.save
and consumed by GraphAPI. -/
structure Tag where
  name : String
  kind : String
  category : String
  relFname : String
  line : Nat × Nat
  info : String
  deriving DecidableEq, Repr

/-- Mirror of the NodeInfo dataclass of graph_api.py. -/
structure NodeInfo where
  id : String
  name : String
  category : String
  kind : String
  file : String
  line : Nat × Nat
  info : String
  deriving DecidableEq, Repr

/-- Mirror of GraphAPI._tag_to_node_info. -/
def tagToNodeInfo (t : Tag) : NodeInfo :=
  { id := t.name, name := t.name, category := t.category, kind := t.kind,
    file := t.relFname, line := t.line, info := t.info }

/-- One step of GraphAPI._build_node_index: if the name is absent the tag is
inserted; if present it is overwritten only when the tag's kind is "def". -/
def indexStep (idx : String → Option Tag) (t : Tag) : String → Option Tag :=
  match idx t.name with
  | none => Function.update idx t.name (some t)
  | some _ => if t.kind = "def" then Function.update idx t.name (some t) else idx

/-- GraphAPI._build_node_index: fold the tag list, in extraction order, into a
name-keyed index. -/
def buildNodeIndex (tags : List Tag) : String → Option Tag :=
  tags.foldl indexStep (fun _ => none)

/-- GraphAPI.get_node: name-index lookup, absent gives none. -/
def getNode (tags : List Tag) (name : String) : Option NodeInfo :=
  (buildNodeIndex tags name).map tagToNodeInfo

/-! ## The loaded directed graph -/

/-- Node attributes as stored on graph nodes by GraphBuilder (category, kind,
file, line range, info; the language attribute is irrelevant to every claim
and is carried in the same way by `file`-style string fields). -/
structure GAttrs where
  category : String
  kind : String
  file : String
  line : Nat × Nat
  info : String
  deriving DecidableEq, Repr

/-- A directed graph: named nodes with attributes plus a directed edge list,
mirroring the networkx DiGraph used by builder and query layer. -/
structure CodeGraph where
  nodes : List (String × GAttrs)
  edges : List (String × String)
  deriving DecidableEq, Repr

/-- Names of the graph's nodes (what `name in self.graph` checks). -/
def nodeNames (g : CodeGraph) : List String :=
  g.nodes.map Prod.fst

/-- Direct successors of a node, as networkx `graph.neighbors` yields them. -/
def succList (g : CodeGraph) (v : String) : List String :=
  (g.edges.filter (fun e => e.1 = v)).map Prod.snd

/-- Targets of the graph's edges. -/
def edgeTargets (g : CodeGraph) : List String :=
  g.edges.map Prod.snd

theorem succList_subset_targets (g : CodeGraph) (v x : String)
    (h : x ∈ succList g v) : x ∈ edgeTargets g := by
  simp only [succList, List.mem_map, List.mem_filter] at h
  rcases h with ⟨e, ⟨he, _⟩, hx⟩
  exact List.mem_map.mpr ⟨e, he, hx⟩

/-- Ground set for the BFS termination measure: every string that can ever
appear in the queue. -/
def bfsBase (g : CodeGraph) (q : List (String × Nat)) : Finset String :=
  (nodeNames g ++ edgeTargets g ++ q.map Prod.fst).toFinset

theorem mem_bfsBase (g : CodeGraph) (q : List (String × Nat)) (x : String) :
    x ∈ bfsBase g q ↔ x ∈ nodeNames g ∨ x ∈ edgeTargets g ∨ x ∈ q.map Prod.fst := by
  simp [bfsBase, List.mem_append, or_assoc]

theorem bfs_measure_skip (g : CodeGraph) (node : String) (level : Nat)
    (rest : List (String × Nat)) (visited : Finset String) :
    (bfsBase g rest \ visited).card < (bfsBase g ((node, level) :: rest) \ visited).card ∨
      (bfsBase g rest \ visited).card = (bfsBase g ((node, level) :: rest) \ visited).card := by
  have hsub : bfsBase g rest \ visited ⊆ bfsBase g ((node, level) :: rest) \ visited := by
    intro x hx
    rcases Finset.mem_sdiff.mp hx with ⟨hin, hnv⟩
    refine Finset.mem_sdiff.mpr ⟨?_, hnv⟩
    rw [mem_bfsBase] at hin ⊢
    simpa [or_assoc] using Or.imp_right (Or.imp_right (List.mem_cons_of_mem _)) hin
  exact (Nat.lt_or_ge _ _).imp id
    (fun h => le_antisymm (Finset.card_le_card hsub) h)

theorem bfs_measure_step (g : CodeGraph) (node : String) (level : Nat)
    (rest newEntries : List (String × Nat)) (visited : Finset String)
    (hnew : ∀ p ∈ newEntries, p.1 ∈ edgeTargets g) (hnv : node ∉ visited) :
    (bfsBase g (rest ++ newEntries) \ insert node visited).card <
      (bfsBase g ((node, level) :: rest) \ visited).card := by
  apply Finset.card_lt_card
  have hsub : bfsBase g (rest ++ newEntries) \ insert node visited ⊆
      bfsBase g ((node, level) :: rest) \ visited := by
    intro x hx
    rcases Finset.mem_sdiff.mp hx with ⟨hin, hni⟩
    have hnvx : x ∉ visited := fun hc => hni (Finset.mem_insert_of_mem hc)
    refine Finset.mem_sdiff.mpr ⟨?_, hnvx⟩
    rw [mem_bfsBase] at hin ⊢
    rcases hin with h | h | h
    · exact Or.inl h
    · exact Or.inr (Or.inl h)
    · rw [List.map_append, List.mem_append] at h
      rcases h with h | h
      · exact Or.inr (Or.inr (by simpa using Or.inr h))
      · rcases List.mem_map.mp h with ⟨p, hp, hpx⟩
        exact Or.inr (Or.inl (hpx ▸ hnew p hp))
  rw [Finset.ssubset_iff_of_subset hsub]
  refine ⟨node, Finset.mem_sdiff.mpr ⟨?_, hnv⟩, fun hc => ?_⟩
  · rw [mem_bfsBase]
    exact Or.inr (Or.inr (by simp))
  · exact (Finset.mem_sdiff.mp hc).2 (Finset.mem_insert_self _ _)

/-- The BFS loop of GraphAPI.get_neighbors: pop from the front of the queue,
skip already-visited nodes, otherwise mark visited and, when the node's level
is below the depth bound and the node is in the graph, enqueue its
not-yet-visited successors at the next level. -/
def bfsLoop (g : CodeGraph) (depth : Int) :
    List (String × Nat) → Finset String → Finset String
  | [], visited => visited
  | (node, level) :: rest, visited =>
    if node ∈ visited then
      bfsLoop g depth rest visited
    else
      let visited' := insert node visited
      let newEntries :=
        if (level : Int) < depth ∧ node ∈ nodeNames g then
          ((succList g node).filter (fun w => w ∉ visited')).map (fun w => (w, level + 1))
        else []
      bfsLoop g depth (rest ++ newEntries) visited'
termination_by q visited => ((bfsBase g q \ visited).card, q.length)
decreasing_by
  · rcases bfs_measure_skip g node level rest visited with h | h
    · exact Prod.Lex.left _ _ h
    · rw [h]
      exact Prod.Lex.right _ (by simp)
  · apply Prod.Lex.left
    apply bfs_measure_step
    · intro p hp
      split at hp
      · rcases List.mem_map.mp hp with ⟨w, hw, hwp⟩
        exact hwp ▸ succList_subset_targets g node w (List.mem_filter.mp hw).1
      · simp at hp
    · assumption

/-- GraphAPI.get_neighbors: depth 1 returns the direct successors; a missing
start node returns the empty list; any other depth runs the BFS loop and
returns the visited set with the start node removed (the Python code returns
the resulting set as a list in unspecified order; the embedding returns it
sorted). -/
def getNeighbors (g : CodeGraph) (name : String) (depth : Int) : List String :=
  if name ∈ nodeNames g then
    if depth = 1 then succList g name
    else ((bfsLoop g depth [(name, 0)] ∅).erase name).sort (· ≤ ·)
  else []

/-- Successor set of a single node. -/
def succSet (g : CodeGraph) (v : String) : Finset String :=
  (succList g v).toFinset

/-- Successors of a whole set of nodes. -/
def succOfSet (g : CodeGraph) (X : Finset String) : Finset String :=
  X.biUnion (succSet g)

/-- Nodes reachable from `s` along directed edges in at most `k` hops: the
union of all breadth levels 0..k. -/
def reachWithin (g : CodeGraph) (s : String) : Nat → Finset String
  | 0 => {s}
  | k + 1 => reachWithin g s k ∪ succOfSet g (reachWithin g s k)

/-! ## Visualization export (GraphAPI.to_vis_format) -/

/-- One exported visualization node, as put into node_map by to_vis_format. -/
structure VisNode where
  id : String
  name : String
  category : String
  group : String
  file : String
  deriving DecidableEq, Repr

/-- GraphAPI.get_definitions: all tags of kind "def", in record order. -/
def getDefinitions (tags : List Tag) : List NodeInfo :=
  (tags.filter (fun t => t.kind = "def")).map tagToNodeInfo

/-- Node source of to_vis_format: file-category graph nodes in files-only
mode, otherwise all definition records. -/
def visNodeSource (g : CodeGraph) (tags : List Tag) (filesOnly : Bool) : List NodeInfo :=
  if filesOnly then
    (g.nodes.filter (fun n => n.2.category = "file")).map (fun n =>
      { id := n.1, name := n.1, category := "file", kind := n.2.kind,
        file := n.2.file, line := n.2.line, info := n.2.info })
  else getDefinitions tags

/-- The node_map/nodes loop of to_vis_format: keep the first occurrence of
each name. -/
def buildVisNodes : List NodeInfo → List String → List VisNode
  | [], _ => []
  | n :: rest, seen =>
    if n.name ∈ seen then buildVisNodes rest seen
    else { id := n.name, name := n.name, category := n.category,
           group := n.category, file := n.file } :: buildVisNodes rest (n.name :: seen)

/-- Sorted unordered pair, as `tuple(sorted([a, b]))` canonicalizes an edge. -/
def sortPair (e : String × String) : String × String :=
  if e.1 ≤ e.2 then e else (e.2, e.1)

/-- The links loop of to_vis_format: keep an edge only when both endpoints are
exported nodes and its sorted endpoint pair has not been seen yet. -/
def visLinks (names : List String) :
    List (String × String) → List (String × String) → List (String × String)
  | [], _ => []
  | e :: rest, seen =>
    if e.1 ∈ names ∧ e.2 ∈ names then
      if sortPair e ∈ seen then visLinks names rest seen
      else e :: visLinks names rest (sortPair e :: seen)
    else visLinks names rest seen

/-- GraphAPI.to_vis_format: the deduplicated node list and link list. -/
def visExport (g : CodeGraph) (tags : List Tag) (filesOnly : Bool) :
    List VisNode × List (String × String) :=
  (buildVisNodes (visNodeSource g tags filesOnly) [],
   visLinks ((buildVisNodes (visNodeSource g tags filesOnly) []).map VisNode.id)
     g.edges [])

/-! ## Builder: Python-style string helpers (kernel-computable stand-ins for
the exact str operations used by graph_builder.py) -/

/-- Python `str.split(sep)` for a one-character separator (all separators the
builder splits on are one character). -/
def splitCharAux (sep : Char) : List Char → List Char → List String
  | [], acc => [String.mk acc.reverse]
  | c :: rest, acc =>
    if c = sep then String.mk acc.reverse :: splitCharAux sep rest []
    else splitCharAux sep rest (c :: acc)

/-- Python `s.split(sep)` for a one-character separator. -/
def splitOnChar (sep : Char) (s : String) : List String :=
  splitCharAux sep s.data []

/-- Python `s.replace(old, new)` for one-character old/new. -/
def replaceChar (a b : Char) (s : String) : String :=
  String.mk (s.data.map (fun c => if c = a then b else c))

/-- Python `s.strip("./")`: drop leading and trailing '.' and '/' characters. -/
def stripDotSlash (s : String) : String :=
  String.mk ((((s.data.dropWhile (fun c => c = '.' ∨ c = '/')).reverse).dropWhile
    (fun c => c = '.' ∨ c = '/')).reverse)

/-- Python `str.strip()`: drop leading and trailing whitespace. -/
def pyStrip (s : String) : String :=
  String.mk ((((s.data.dropWhile Char.isWhitespace).reverse).dropWhile
    Char.isWhitespace).reverse)

/-- Whether `pre` is a prefix of `l`. -/
def listIsPrefix : List Char → List Char → Bool
  | [], _ => true
  | _ :: _, [] => false
  | a :: s, b :: k => a = b && listIsPrefix s k

/-- Python `sub in key`: substring containment. -/
def listContainsSub (sub : List Char) : List Char → Bool
  | [] => listIsPrefix sub []
  | k :: t => listIsPrefix sub (k :: t) || listContainsSub sub t

/-- Python `candidate in key` on strings. -/
def strContainsSub (key sub : String) : Bool :=
  listContainsSub sub.data key.data

/-- Python `key.endswith(suffix)`. -/
def strEndsWith (key suf : String) : Bool :=
  listIsPrefix suf.data.reverse key.data.reverse

/-- Python `code.splitlines()` (newline-separated, no trailing empty line). -/
def pySplitlines (s : String) : List String :=
  let parts := splitOnChar '\n' s
  if parts.getLast? = some "" then parts.dropLast else parts

/-! ## Builder operations (GraphBuilder) -/

/-- One call into the graph assembler: either GraphBuilder._add_node (also
used for the file node, with an empty parent) or
GraphBuilder._add_import_edge. -/
inductive BOp where
  | addNode (name category relPath : String) (startLine endLine : Nat)
      (language parent info : String)
  | importEdge (fromFile importPath : String) (fileMap : List (String × String))
  deriving DecidableEq, Repr

/-- networkx `graph.add_node(name, **attrs)`: insert the node, or overwrite
the attributes of an existing node in place. -/
def graphAddNode (g : CodeGraph) (name : String) (attrs : GAttrs) : CodeGraph :=
  if name ∈ nodeNames g then
    { g with nodes := g.nodes.map (fun n => if n.1 = name then (n.1, attrs) else n) }
  else
    { g with nodes := g.nodes ++ [(name, attrs)] }

/-- Default attributes networkx gives a node created implicitly by add_edge. -/
def emptyAttrs : GAttrs :=
  { category := "", kind := "", file := "", line := (0, 0), info := "" }

/-- networkx implicit node insertion performed by add_edge for a missing
endpoint. -/
def ensureNode (g : CodeGraph) (u : String) : CodeGraph :=
  if u ∈ nodeNames g then g else { g with nodes := g.nodes ++ [(u, emptyAttrs)] }

/-- networkx `graph.add_edge(u, v)`: implicitly insert missing endpoints, then
add the edge unless it is already present. -/
def graphAddEdge (g : CodeGraph) (u v : String) : CodeGraph :=
  if (u, v) ∈ (ensureNode (ensureNode g u) v).edges then ensureNode (ensureNode g u) v
  else { ensureNode (ensureNode g u) v with
         edges := (ensureNode (ensureNode g u) v).edges ++ [(u, v)] }

/-! ## Import resolution (GraphBuilder._add_import_edge) -/

/-- Cleanup at the top of _add_import_edge:
`import_path.strip("./").replace("\\", "/")`. -/
def cleanImportPath (s : String) : String :=
  replaceChar '\\' '/' (stripDotSlash s)

/-- Last element of a Python `split` result (never empty). -/
def lastSegment (sep : Char) (s : String) : String :=
  (splitOnChar sep s).getLastD ""

/-- The candidate list of _add_import_edge, in order: the path itself, the
path with '.' replaced by '/', the last '.'-delimited segment, the last
'/'-delimited segment. -/
def importCandidates (p : String) : List String :=
  [p, replaceChar '.' '/' p, lastSegment '.' p, lastSegment '/' p]

/-- The match test of _add_import_edge:
`candidate in key or key.endswith(candidate)`. -/
def keyMatches (key cand : String) : Bool :=
  strContainsSub key cand || strEndsWith key cand

/-- The nested candidate/key loops of _add_import_edge: the first file-map
entry matching the first candidate that matches anything; the loop returns as
soon as any pair matches. -/
def resolveImport (fileMap : List (String × String)) (importPath : String) :
    Option String :=
  (importCandidates (cleanImportPath importPath)).findSome? (fun c =>
    (fileMap.find? (fun kv => keyMatches kv.1 c)).map Prod.snd)

/-- Modelled from the spec's words for comparison (section 4.3 / claim C2):
candidate strings generated from the raw import target with no cleanup, tried
in the stated order against the file index with the same containment test. -/
def specResolveImport (fileMap : List (String × String)) (rawTarget : String) :
    Option String :=
  (importCandidates rawTarget).findSome? (fun c =>
    (fileMap.find? (fun kv => keyMatches kv.1 c)).map Prod.snd)

/-- Tail of _add_import_edge: resolve, then add the edge only when source and
target are distinct and both are already graph nodes. -/
def applyImportEdge (g : CodeGraph) (fromFile importPath : String)
    (fileMap : List (String × String)) : CodeGraph :=
  match resolveImport fileMap importPath with
  | none => g
  | some rel =>
    let toFile := replaceChar '\\' '/' rel
    if fromFile ≠ toFile ∧ fromFile ∈ nodeNames g ∧ toFile ∈ nodeNames g then
      graphAddEdge g fromFile toFile
    else g

/-- GraphBuilder._add_node: add the node (kind "def"), then add a containment
edge from the parent only when the parent is a non-empty name already in the
graph. -/
def applyAddNode (g : CodeGraph) (name category relPath : String)
    (startLine endLine : Nat) (info parent : String) : CodeGraph :=
  let g1 := graphAddNode g name
    { category := category, kind := "def", file := relPath,
      line := (startLine, endLine), info := info }
  if parent ≠ "" ∧ parent ∈ nodeNames g1 then graphAddEdge g1 parent name else g1

/-- Apply one assembler call to the graph. -/
def applyBOp (g : CodeGraph) : BOp → CodeGraph
  | .addNode name category relPath startLine endLine _ parent info =>
    applyAddNode g name category relPath startLine endLine info parent
  | .importEdge fromFile importPath fileMap =>
    applyImportEdge g fromFile importPath fileMap

/-- The empty graph a build starts from. -/
def emptyCodeGraph : CodeGraph := { nodes := [], edges := [] }

/-- A build: any sequence of assembler calls applied in order. -/
def buildGraph (ops : List BOp) : CodeGraph :=
  ops.foldl applyBOp emptyCodeGraph

/-! ## Line-oriented fallback extraction (GraphBuilder._parse_with_regex)

A pattern is abstracted as a matcher returning the captured name when the
(stripped) line matches; the rule table is an ordered list of
(category, matcher) pairs exactly as DEFINITION_PATTERNS iterates. -/

/-- The inner pattern loop: the first rule whose pattern matches the stripped
line, with its category. -/
def firstRuleMatch (rules : List (String × (String → Option String)))
    (line : String) : Option (String × String) :=
  rules.findSome? (fun r => (r.2 line).map (fun name => (r.1, name)))

/-- Category normalization of _parse_with_regex: text before the first
underscore, then "const" and "method" collapse to "function". -/
def normCategory (category : String) : String :=
  let n := (splitOnChar '_' category).headD ""
  if n = "const" ∨ n = "method" then "function" else n

/-- The body of the per-line loop of _parse_with_regex for one line numbered
`n`: the node from the first matching rule, if any, with a line range equal
to the declaration line. -/
def lineOps (rules : List (String × (String → Option String)))
    (relPath fileNodeName language : String) (n : Nat) (line : String) : List BOp :=
  match firstRuleMatch rules (pyStrip line) with
  | some cn =>
    [BOp.addNode cn.2 (normCategory cn.1) relPath n n language fileNodeName ""]
  | none => []

/-- The per-line loop of _parse_with_regex, carrying the 1-based line number:
at most one node per line, from the first matching rule. -/
def parseLines (rules : List (String × (String → Option String)))
    (relPath fileNodeName language : String) : Nat → List String → List BOp
  | _, [] => []
  | n, line :: rest =>
    lineOps rules relPath fileNodeName language n line ++
      parseLines rules relPath fileNodeName language (n + 1) rest

/-- GraphBuilder._parse_with_regex over the file's lines. -/
def parseWithRegex (rules : List (String × (String → Option String)))
    (lines : List String) (relPath fileNodeName language : String) : List BOp :=
  parseLines rules relPath fileNodeName language 1 lines

/-! ## Grammar-aware Python pass (GraphBuilder._parse_python_file)

The Python AST is modelled by the statement shapes the extractor inspects:
class definitions, (async) function definitions, and any other statement
that can carry a body (if/for/while/try/with). -/

/-- A Python statement as seen by ast.walk. -/
inductive PyStmt where
  | classDef (name : String) (lineno : Nat) (endLineno : Option Nat) (body : List PyStmt)
  | funcDef (name : String) (lineno : Nat) (endLineno : Option Nat) (body : List PyStmt)
  | asyncFuncDef (name : String) (lineno : Nat) (endLineno : Option Nat) (body : List PyStmt)
  | other (body : List PyStmt)

mutual

def stmtBeq : PyStmt → PyStmt → Bool
  | .classDef n l e b, .classDef n' l' e' b' => n == n' && l == l' && e == e' && stmtListBeq b b'
  | .funcDef n l e b, .funcDef n' l' e' b' => n == n' && l == l' && e == e' && stmtListBeq b b'
  | .asyncFuncDef n l e b, .asyncFuncDef n' l' e' b' =>
      n == n' && l == l' && e == e' && stmtListBeq b b'
  | .other b, .other b' => stmtListBeq b b'
  | _, _ => false

def stmtListBeq : List PyStmt → List PyStmt → Bool
  | [], [] => true
  | a :: s, b :: t => stmtBeq a b && stmtListBeq s t
  | _, _ => false

end

instance : BEq PyStmt := ⟨stmtBeq⟩

mutual

theorem stmtBeq_iff : (a b : PyStmt) → (stmtBeq a b = true ↔ a = b)
  | .classDef n l e s, .classDef n' l' e' t => by
    simp [stmtBeq, stmtListBeq_iff s t, and_assoc]
  | .funcDef n l e s, .funcDef n' l' e' t => by
    simp [stmtBeq, stmtListBeq_iff s t, and_assoc]
  | .asyncFuncDef n l e s, .asyncFuncDef n' l' e' t => by
    simp [stmtBeq, stmtListBeq_iff s t, and_assoc]
  | .other s, .other t => by simp [stmtBeq, stmtListBeq_iff s t]
  | .classDef _ _ _ _, .funcDef _ _ _ _ => by simp [stmtBeq]
  | .classDef _ _ _ _, .asyncFuncDef _ _ _ _ => by simp [stmtBeq]
  | .classDef _ _ _ _, .other _ => by simp [stmtBeq]
  | .funcDef _ _ _ _, .classDef _ _ _ _ => by simp [stmtBeq]
  | .funcDef _ _ _ _, .asyncFuncDef _ _ _ _ => by simp [stmtBeq]
  | .funcDef _ _ _ _, .other _ => by simp [stmtBeq]
  | .asyncFuncDef _ _ _ _, .classDef _ _ _ _ => by simp [stmtBeq]
  | .asyncFuncDef _ _ _ _, .funcDef _ _ _ _ => by simp [stmtBeq]
  | .asyncFuncDef _ _ _ _, .other _ => by simp [stmtBeq]
  | .other _, .classDef _ _ _ _ => by simp [stmtBeq]
  | .other _, .funcDef _ _ _ _ => by simp [stmtBeq]
  | .other _, .asyncFuncDef _ _ _ _ => by simp [stmtBeq]

theorem stmtListBeq_iff : (a b : List PyStmt) → (stmtListBeq a b = true ↔ a = b)
  | [], [] => by simp [stmtListBeq]
  | [], _ :: _ => by simp [stmtListBeq]
  | _ :: _, [] => by simp [stmtListBeq]
  | a :: s, b :: t => by
    simp [stmtListBeq, stmtBeq_iff a b, stmtListBeq_iff s t]

end

instance : DecidableEq PyStmt := fun a b => decidable_of_iff _ (stmtBeq_iff a b)

instance : LawfulBEq PyStmt where
  eq_of_beq h := (stmtBeq_iff _ _).mp h
  rfl := (stmtBeq_iff _ _).mpr rfl

/-- Child statements of a statement, as ast.iter_child_nodes yields them. -/
def childStmts : PyStmt → List PyStmt
  | .classDef _ _ _ b => b
  | .funcDef _ _ _ b => b
  | .asyncFuncDef _ _ _ b => b
  | .other b => b

mutual

def stmtSize : PyStmt → Nat
  | .classDef _ _ _ b => 1 + stmtSizeList b
  | .funcDef _ _ _ b => 1 + stmtSizeList b
  | .asyncFuncDef _ _ _ b => 1 + stmtSizeList b
  | .other b => 1 + stmtSizeList b

def stmtSizeList : List PyStmt → Nat
  | [] => 0
  | s :: t => stmtSize s + stmtSizeList t

end

theorem stmtSize_pos (s : PyStmt) : 1 ≤ stmtSize s := by
  cases s <;> (simp only [stmtSize]; omega)

theorem stmtSizeList_append (a b : List PyStmt) :
    stmtSizeList (a ++ b) = stmtSizeList a + stmtSizeList b := by
  induction a with
  | nil => simp [stmtSizeList]
  | cons s t ih =>
    rw [List.cons_append]
    simp only [stmtSizeList]
    rw [ih]
    omega

theorem childStmts_size (s : PyStmt) : stmtSizeList (childStmts s) < stmtSize s := by
  cases s <;> (simp only [childStmts, stmtSize]; omega)

/-- Fueled breadth-first traversal; the fuel is a strict upper bound argument
made irrelevant by `walkFuel_irrel`. -/
def walkFuel : Nat → List PyStmt → List PyStmt
  | _, [] => []
  | 0, _ :: _ => []
  | f + 1, s :: rest => s :: walkFuel f (rest ++ childStmts s)

theorem sum_cons_pos (s : PyStmt) (rest : List PyStmt) :
    1 ≤ stmtSizeList (s :: rest) := by
  have := stmtSize_pos s
  simp only [stmtSizeList]
  omega

theorem sum_step_le (s : PyStmt) (rest : List PyStmt) :
    stmtSizeList (rest ++ childStmts s) + 1 ≤ stmtSizeList (s :: rest) := by
  have := childStmts_size s
  simp only [stmtSizeList_append, stmtSizeList]
  omega

theorem walkFuel_irrel : ∀ (f1 : Nat), ∀ (f2 : Nat) (q : List PyStmt),
    stmtSizeList q ≤ f1 → stmtSizeList q ≤ f2 → walkFuel f1 q = walkFuel f2 q := by
  intro f1
  induction f1 with
  | zero =>
    intro f2 q h1 _
    cases q with
    | nil => cases f2 <;> rfl
    | cons s rest => exact absurd h1 (by have := sum_cons_pos s rest; omega)
  | succ f ih =>
    intro f2 q h1 h2
    cases q with
    | nil => cases f2 <;> rfl
    | cons s rest =>
      have hpos := sum_cons_pos s rest
      cases f2 with
      | zero => exact absurd h2 (by omega)
      | succ f2' =>
        have hstep := sum_step_le s rest
        simp only [walkFuel]
        rw [ih f2' (rest ++ childStmts s) (by omega) (by omega)]

/-- ast.walk: breadth-first enumeration of all statements in the queue and
their descendants. -/
def walkA (q : List PyStmt) : List PyStmt :=
  walkFuel (stmtSizeList q) q

theorem walkA_nil : walkA [] = [] := rfl

theorem walkA_cons (s : PyStmt) (rest : List PyStmt) :
    walkA (s :: rest) = s :: walkA (rest ++ childStmts s) := by
  have hpos := sum_cons_pos s rest
  have hstep := sum_step_le s rest
  unfold walkA
  obtain ⟨m, hm⟩ : ∃ m, stmtSizeList (s :: rest) = m + 1 :=
    ⟨stmtSizeList (s :: rest) - 1, by omega⟩
  rw [hm]
  simp only [walkFuel]
  rw [walkFuel_irrel m _ (rest ++ childStmts s) (by omega) le_rfl]

/-- The ancestor test of _parse_python_file, exactly as written:
`any(node in getattr(n, 'body', []) for n in ast.walk(tree) if
isinstance(n, ast.ClassDef))`, i.e. direct membership of the function in some
class's body list. -/
def isDirectClassMember (s : PyStmt) (tree : List PyStmt) : Bool :=
  (walkA tree).any (fun c =>
    match c with
    | .classDef _ _ _ body => body.contains s
    | _ => false)

/-- Being a descendant of some class definition anywhere in the file (what
claim C3 asserts the extractor tests). -/
def occursUnderClass (s : PyStmt) (tree : List PyStmt) : Bool :=
  (walkA tree).any (fun c =>
    match c with
    | .classDef _ _ _ body => (walkA body).contains s
    | _ => false)

/-- Python `", ".join`. -/
def joinCommaSep : List String → String
  | [] => ""
  | [s] => s
  | s :: rest => s ++ ", " ++ joinCommaSep rest

/-- Names of the plain (non-async) function definitions directly in a class
body, used for the class node's info string. -/
def directFuncNames (body : List PyStmt) : List String :=
  body.filterMap (fun m =>
    match m with
    | .funcDef n _ _ _ => some n
    | _ => none)

/-- The method loop inside the ClassDef branch of _parse_python_file: one
method node per direct (async) function definition of the class body. -/
def methodOpsOf (relPath clsName : String) (body : List PyStmt) : List BOp :=
  body.filterMap (fun m =>
    match m with
    | .funcDef mn ml me _ =>
      some (.addNode (clsName ++ "." ++ mn) "method" relPath ml (me.getD ml)
        "python" clsName "")
    | .asyncFuncDef mn ml me _ =>
      some (.addNode (clsName ++ "." ++ mn) "method" relPath ml (me.getD ml)
        "python" clsName "")
    | _ => none)

/-- The per-statement branch of the ast.walk loop of _parse_python_file. -/
def stmtOps (tree : List PyStmt) (relPath fileNodeName : String) : PyStmt → List BOp
  | .classDef n l e body =>
    .addNode n "class" relPath l (e.getD l) "python" fileNodeName
        (joinCommaSep (directFuncNames body)) :: methodOpsOf relPath n body
  | .funcDef n l e body =>
    if isDirectClassMember (.funcDef n l e body) tree then []
    else [.addNode n "function" relPath l (e.getD l) "python" fileNodeName ""]
  | .asyncFuncDef n l e body =>
    if isDirectClassMember (.asyncFuncDef n l e body) tree then []
    else [.addNode n "function" relPath l (e.getD l) "python" fileNodeName ""]
  | .other _ => []

/-- GraphBuilder._parse_python_file on a successfully parsed tree. -/
def pythonExtract (tree : List PyStmt) (relPath fileNodeName : String) : List BOp :=
  (walkA tree).flatMap (stmtOps tree relPath fileNodeName)

/-- GraphBuilder._parse_file: create the file node first, then run the
grammar-aware pass for Python (falling back to the line-oriented pass when
ast.parse raises) and the line-oriented pass for every other language.  The
Python parser itself is an abstract parameter: `pyParse code = none` models
ast.parse raising a SyntaxError. -/
def parseFile (pyParse : String → Option (List PyStmt))
    (table : String → List (String × (String → Option String)))
    (language relPath : String) (code : String) : List BOp :=
  let lines := pySplitlines code
  let fileNodeName := replaceChar '\\' '/' relPath
  BOp.addNode fileNodeName "file" relPath 1 lines.length language "" "" ::
    (if language = "python" then
      match pyParse code with
      | some tree => pythonExtract tree relPath fileNodeName
      | none => parseWithRegex (table "python") lines relPath fileNodeName "python"
    else parseWithRegex (table language) lines relPath fileNodeName language)

/-! ## Unfolding equations for the BFS loop -/

theorem bfsLoop_nil (g : CodeGraph) (depth : Int) (visited : Finset String) :
    bfsLoop g depth [] visited = visited := by
  rw [bfsLoop]

theorem bfsLoop_cons_mem (g : CodeGraph) (depth : Int) (node : String) (level : Nat)
    (rest : List (String × Nat)) (visited : Finset String) (h : node ∈ visited) :
    bfsLoop g depth ((node, level) :: rest) visited = bfsLoop g depth rest visited := by
  rw [bfsLoop]
  simp [h]

theorem bfsLoop_cons_not_mem (g : CodeGraph) (depth : Int) (node : String) (level : Nat)
    (rest : List (String × Nat)) (visited : Finset String) (h : node ∉ visited) :
    bfsLoop g depth ((node, level) :: rest) visited =
      bfsLoop g depth
        (rest ++ (if (level : Int) < depth ∧ node ∈ nodeNames g then
          ((succList g node).filter (fun w => w ∉ insert node visited)).map
            (fun w => (w, level + 1))
        else []))
        (insert node visited) := by
  rw [bfsLoop]
  simp [h]

/-! ## Claim C9: non-positive depth -/

/-- C9: GetNeighbors(name, depth) with depth = 0 or any negative depth
returns the empty list for every node name, including a name that exists in
the graph and has direct successors: the breadth-first branch visits only the
start node when depth < 1 and then removes it from the result. -/
theorem c9_depth_nonpositive (g : CodeGraph) (name : String) (depth : Int)
    (hd : depth ≤ 0) : getNeighbors g name depth = [] := by
  unfold getNeighbors
  by_cases hmem : name ∈ nodeNames g
  · have hne : ¬depth = 1 := by omega
    rw [if_pos hmem, if_neg hne]
    rw [bfsLoop_cons_not_mem g depth name 0 [] ∅ (by simp)]
    have hcond : ¬(((0 : Nat) : Int) < depth ∧ name ∈ nodeNames g) := by
      intro hc
      have := hc.1
      omega
    rw [if_neg hcond, List.nil_append, bfsLoop_nil]
    rw [Finset.erase_insert (by simp)]
    exact Finset.sort_empty _
  · rw [if_neg hmem]

/-- Witness for C9 at a concrete graph in which the start node exists and has
a direct successor. -/
def gC9 : CodeGraph :=
  { nodes := [("A", emptyAttrs), ("B", emptyAttrs)], edges := [("A", "B")] }

theorem c9_witness :
    (0 : Int) ≤ 0 ∧ "A" ∈ nodeNames gC9 ∧ succList gC9 "A" = ["B"] ∧
      getNeighbors gC9 "A" 0 = [] :=
  ⟨le_refl 0, by decide, by decide, c9_depth_nonpositive gC9 "A" 0 (le_refl 0)⟩

/-! ## Claim C1: name-index tie-break -/

theorem buildNodeIndex_concat (l : List Tag) (t : Tag) :
    buildNodeIndex (l ++ [t]) = indexStep (buildNodeIndex l) t := by
  simp [buildNodeIndex, List.foldl_append]

theorem indexStep_absent (idx : String → Option Tag) (t : Tag)
    (h : idx t.name = none) :
    indexStep idx t = Function.update idx t.name (some t) := by
  unfold indexStep
  rw [h]

theorem indexStep_overwrite (idx : String → Option Tag) (t : Tag) (u : Tag)
    (h : idx t.name = some u) (hk : t.kind = "def") :
    indexStep idx t = Function.update idx t.name (some t) := by
  unfold indexStep
  rw [h, if_pos hk]

theorem indexStep_keep (idx : String → Option Tag) (t : Tag) (u : Tag)
    (h : idx t.name = some u) (hk : ¬t.kind = "def") :
    indexStep idx t = idx := by
  unfold indexStep
  rw [h, if_neg hk]

theorem filter_tag_singleton_name (t : Tag) (name : String) (h : t.name = name) :
    [t].filter (fun x => x.name == name) = [t] := by
  simp [List.filter, h]

theorem filter_tag_singleton_other (t : Tag) (name : String) (h : t.name ≠ name) :
    [t].filter (fun x => x.name == name) = [] := by
  have hb : (t.name == name) = false := by simp [h]
  simp [List.filter, hb]

theorem filter_tag_singleton_def (t : Tag) (name : String) (h : t.name = name)
    (hk : t.kind = "def") :
    [t].filter (fun x => x.name == name && x.kind == "def") = [t] := by
  simp [List.filter, h, hk]

theorem filter_tag_singleton_nondef (t : Tag) (name : String) (hk : ¬(t.name = name ∧ t.kind = "def")) :
    [t].filter (fun x => x.name == name && x.kind == "def") = [] := by
  have : (t.name == name && t.kind == "def") = false := by
    rcases Decidable.em (t.name = name) with h | h
    · rcases Decidable.em (t.kind = "def") with h2 | h2
      · exact absurd ⟨h, h2⟩ hk
      · simp [h2]
    · simp [h]
  simp [List.filter, this]

theorem buildNodeIndex_eq (tags : List Tag) (name : String) :
    buildNodeIndex tags name =
      ((tags.filter (fun x => x.name == name && x.kind == "def")).getLast?).orElse
        (fun _ => (tags.filter (fun x => x.name == name)).head?) := by
  induction tags using List.reverseRecOn with
  | nil => simp [buildNodeIndex]
  | append_singleton l t ih =>
    rw [buildNodeIndex_concat, List.filter_append, List.filter_append]
    by_cases hn : t.name = name
    · subst hn
      cases hB : buildNodeIndex l t.name with
      | none =>
        rw [hB] at ih
        have hnamed : l.filter (fun x => x.name == t.name) = [] := by
          cases hdefs : (l.filter (fun x => x.name == t.name && x.kind == "def")).getLast? with
          | none =>
            rw [hdefs] at ih
            rw [Option.none_orElse'] at ih
            exact List.head?_eq_none_iff.mp ih.symm
          | some d =>
            rw [hdefs, Option.some_orElse'] at ih
            exact absurd ih.symm (by simp)
        have hdefs : l.filter (fun x => x.name == t.name && x.kind == "def") = [] := by
          rw [List.filter_eq_nil_iff] at hnamed ⊢
          intro a ha hc
          apply hnamed a ha
          simp only [Bool.and_eq_true] at hc
          exact hc.1
        rw [indexStep_absent _ _ hB, Function.update_same, hnamed, hdefs,
          filter_tag_singleton_name t t.name rfl, List.nil_append, List.nil_append]
        by_cases hk : t.kind = "def"
        · rw [filter_tag_singleton_def t t.name rfl hk]
          rfl
        · rw [filter_tag_singleton_nondef t t.name (fun hc => hk hc.2)]
          rfl
      | some u =>
        rw [hB] at ih
        by_cases hk : t.kind = "def"
        · rw [indexStep_overwrite _ _ u hB hk, Function.update_same,
            filter_tag_singleton_def t t.name rfl hk, List.getLast?_concat,
            Option.some_orElse']
        · rw [indexStep_keep _ _ u hB hk, hB,
            filter_tag_singleton_nondef t t.name (fun hc => hk hc.2),
            filter_tag_singleton_name t t.name rfl, List.append_nil]
          cases hdefs : (l.filter (fun x => x.name == t.name && x.kind == "def")).getLast? with
          | none =>
            rw [hdefs, Option.none_orElse'] at ih
            rw [Option.none_orElse']
            cases hNl : l.filter (fun x => x.name == t.name) with
            | nil => rw [hNl] at ih; exact absurd ih.symm (by simp)
            | cons a tl =>
              rw [hNl] at ih
              rw [List.cons_append]
              exact ih
          | some d =>
            rw [hdefs, Option.some_orElse'] at ih
            rw [Option.some_orElse']
            exact ih
    · have hf1 : [t].filter (fun x => x.name == name && x.kind == "def") = [] :=
        filter_tag_singleton_nondef t name (fun hc => hn hc.1)
      have hf2 : [t].filter (fun x => x.name == name) = [] :=
        filter_tag_singleton_other t name hn
      rw [hf1, hf2, List.append_nil, List.append_nil, ← ih]
      have hne : name ≠ t.name := fun hc => hn hc.symm
      cases hB : buildNodeIndex l t.name with
      | none => rw [indexStep_absent _ _ hB, Function.update_noteq hne]
      | some u =>
        by_cases hk : t.kind = "def"
        · rw [indexStep_overwrite _ _ u hB hk, Function.update_noteq hne]
        · rw [indexStep_keep _ _ u hB hk]

/-- C1: the query layer's name index keeps the first record for a name and
lets a later record overwrite it exactly when that record's kind is "def";
hence a lookup yields the last definition-kind record with the name when one
exists, otherwise the first record with the name, and GetNode is absent for a
name with no record. -/
theorem c1_name_index (tags : List Tag) (name : String) :
    buildNodeIndex tags name =
      ((tags.filter (fun x => x.name == name && x.kind == "def")).getLast?).orElse
        (fun _ => (tags.filter (fun x => x.name == name)).head?) ∧
    (getNode tags name = none ↔ ∀ t ∈ tags, t.name ≠ name) := by
  refine ⟨buildNodeIndex_eq tags name, ?_⟩
  rw [getNode, Option.map_eq_none', buildNodeIndex_eq tags name]
  constructor
  · intro h
    cases hdefs : (tags.filter (fun x => x.name == name && x.kind == "def")).getLast? with
    | none =>
      rw [hdefs, Option.none_orElse'] at h
      have hnil := List.head?_eq_none_iff.mp h
      rw [List.filter_eq_nil_iff] at hnil
      intro t ht hc
      exact hnil t ht (by simp [hc])
    | some d =>
      rw [hdefs, Option.some_orElse'] at h
      exact absurd h (by simp)

  · intro h
    have h1 : tags.filter (fun x => x.name == name && x.kind == "def") = [] := by
      rw [List.filter_eq_nil_iff]
      intro a ha hc
      simp only [Bool.and_eq_true, beq_iff_eq] at hc
      exact h a ha hc.1
    have h2 : tags.filter (fun x => x.name == name) = [] := by
      rw [List.filter_eq_nil_iff]
      intro a ha hc
      exact h a ha (beq_iff_eq.mp hc)
    rw [h1, h2]
    rfl

/-! ## Claim C4: BFS neighbor semantics -/

theorem succOfSet_empty (g : CodeGraph) : succOfSet g ∅ = ∅ := by
  simp [succOfSet]

theorem succOfSet_insert (g : CodeGraph) (u : String) (X : Finset String) :
    succOfSet g (insert u X) = succSet g u ∪ succOfSet g X := by
  simp [succOfSet, Finset.biUnion_insert]

theorem succOfSet_mono (g : CodeGraph) {X Y : Finset String} (h : X ⊆ Y) :
    succOfSet g X ⊆ succOfSet g Y :=
  Finset.biUnion_subset_biUnion_of_subset_left _ h

theorem succOfSet_union (g : CodeGraph) (X Y : Finset String) :
    succOfSet g (X ∪ Y) = succOfSet g X ∪ succOfSet g Y := by
  ext x
  simp [succOfSet, Finset.mem_biUnion, Finset.mem_union]
  constructor
  · rintro ⟨a, h | h, hx⟩
    · exact Or.inl ⟨a, h, hx⟩
    · exact Or.inr ⟨a, h, hx⟩
  · rintro (⟨a, h, hx⟩ | ⟨a, h, hx⟩)
    · exact ⟨a, Or.inl h, hx⟩
    · exact ⟨a, Or.inr h, hx⟩

theorem reachWithin_subset_succ (g : CodeGraph) (s : String) (k : Nat) :
    reachWithin g s k ⊆ reachWithin g s (k + 1) := by
  rw [reachWithin]
  exact Finset.subset_union_left

/-- Processing a whole queue whose entries all sit at a level that is not
below the depth bound: every entry is merely marked visited. -/
theorem bfsFinal (g : CodeGraph) (depth : Int) (l : Nat) (hl : ¬(l : Int) < depth) :
    ∀ (A : List String) (V : Finset String),
      bfsLoop g depth (A.map (fun v => (v, l))) V = V ∪ A.toFinset := by
  intro A
  induction A with
  | nil =>
    intro V
    rw [List.map_nil, bfsLoop_nil, List.toFinset_nil, Finset.union_empty]
  | cons u A' ih =>
    intro V
    rw [List.map_cons]
    by_cases hu : u ∈ V
    · rw [bfsLoop_cons_mem g depth u l _ V hu, ih V, List.toFinset_cons]
      ext x
      simp only [Finset.mem_union, Finset.mem_insert]
      constructor
      · rintro (h | h)
        · exact Or.inl h
        · exact Or.inr (Or.inr h)
      · rintro (h | h | h)
        · exact Or.inl h
        · exact Or.inl (h ▸ hu)
        · exact Or.inr h
    · rw [bfsLoop_cons_not_mem g depth u l _ V hu,
        if_neg (fun hc => hl hc.1), List.append_nil, ih (insert u V), List.toFinset_cons]
      ext x
      simp only [Finset.mem_union, Finset.mem_insert]
      tauto

/-- Processing one BFS round: a queue of current-level entries (all at level
`l < depth`) followed by next-level entries.  The whole current level ends up
visited, and the next-level list grows by exactly (a subset of) the current
level's successors, covering all of them. -/
theorem bfsRound (g : CodeGraph) (depth : Int) (l : Nat) (hl : (l : Int) < depth)
    (hval : ∀ e ∈ g.edges, e.2 ∈ nodeNames g) :
    ∀ (A B : List String) (V : Finset String),
      (∀ v ∈ A, v ∈ nodeNames g) →
      (∀ v ∈ B, v ∈ nodeNames g) →
      (∀ v ∈ A, v ∈ V → succSet g v ⊆ V ∪ A.toFinset ∪ B.toFinset) →
      ∃ B' : List String,
        bfsLoop g depth (A.map (fun v => (v, l)) ++ B.map (fun v => (v, l + 1))) V =
          bfsLoop g depth (B'.map (fun v => (v, l + 1))) (V ∪ A.toFinset) ∧
        (∀ v ∈ B', v ∈ nodeNames g) ∧
        B.toFinset ⊆ B'.toFinset ∧
        B'.toFinset ⊆ B.toFinset ∪ succOfSet g A.toFinset ∧
        succOfSet g A.toFinset ⊆ V ∪ A.toFinset ∪ B'.toFinset := by
  intro A
  induction A with
  | nil =>
    intro B V hAn hBn hAs
    refine ⟨B, ?_, hBn, Finset.Subset.refl _, ?_, ?_⟩
    · rw [List.map_nil, List.nil_append, List.toFinset_nil, Finset.union_empty]
    · exact Finset.subset_union_left
    · rw [List.toFinset_nil, succOfSet_empty]
      exact Finset.empty_subset _
  | cons u A' ih =>
    intro B V hAn hBn hAs
    have hun : u ∈ nodeNames g := hAn u (List.mem_cons_self u A')
    rw [List.map_cons, List.cons_append]
    by_cases hu : u ∈ V
    · rw [bfsLoop_cons_mem g depth u l _ V hu]
      have hsu : succSet g u ⊆ V ∪ (u :: A').toFinset ∪ B.toFinset :=
        hAs u (List.mem_cons_self u A') hu
      rw [List.toFinset_cons] at hsu
      obtain ⟨B', heq, hB'n, hBB', hB'sub, hcover⟩ :=
        ih B V (fun v hv => hAn v (List.mem_cons_of_mem u hv)) hBn
          (fun v hv hvV => by
            refine (hAs v (List.mem_cons_of_mem u hv) hvV).trans ?_
            intro x hx
            simp only [Finset.mem_union, List.toFinset_cons, Finset.mem_insert] at hx ⊢
            rcases hx with (h | h | h) | h
            · exact Or.inl (Or.inl h)
            · exact Or.inl (Or.inl (h ▸ hu))
            · exact Or.inl (Or.inr h)
            · exact Or.inr h)
      have hVeq : V ∪ (u :: A').toFinset = V ∪ A'.toFinset := by
        rw [List.toFinset_cons]
        ext x
        simp only [Finset.mem_union, Finset.mem_insert]
        constructor
        · rintro (h | h | h)
          · exact Or.inl h
          · exact Or.inl (h ▸ hu)
          · exact Or.inr h
        · rintro (h | h)
          · exact Or.inl h
          · exact Or.inr (Or.inr h)
      refine ⟨B', by rw [heq, hVeq], hB'n, hBB', ?_, ?_⟩
      · refine hB'sub.trans ?_
        apply Finset.union_subset_union_right
        apply succOfSet_mono
        rw [List.toFinset_cons]
        exact Finset.subset_insert _ _
      · rw [List.toFinset_cons, succOfSet_insert]
        apply Finset.union_subset
        · refine hsu.trans ?_
          apply Finset.union_subset_union_right
          exact hBB'
        · refine hcover.trans ?_
          intro x hx
          simp only [Finset.mem_union, List.toFinset_cons, Finset.mem_insert] at hx ⊢
          rcases hx with (h | h) | h
          · exact Or.inl (Or.inl h)
          · exact Or.inl (Or.inr (Or.inr h))
          · exact Or.inr h
    · rw [bfsLoop_cons_not_mem g depth u l _ V hu, if_pos ⟨hl, hun⟩]
      set newNodes := (succList g u).filter (fun w => w ∉ insert u V) with hnew
      have hqueue :
          A'.map (fun v => (v, l)) ++ B.map (fun v => (v, l + 1)) ++
            newNodes.map (fun w => (w, l + 1)) =
          A'.map (fun v => (v, l)) ++ (B ++ newNodes).map (fun v => (v, l + 1)) := by
        rw [List.map_append, List.append_assoc]
      rw [hqueue]
      have hnewnodes : ∀ v ∈ newNodes, v ∈ nodeNames g := by
        intro v hv
        have hvs : v ∈ succList g u := (List.mem_filter.mp hv).1
        have hvt : v ∈ edgeTargets g := succList_subset_targets g u v hvs
        rcases List.mem_map.mp hvt with ⟨e, he, hev⟩
        exact hev ▸ hval e he
      have hsuccu : succSet g u ⊆ insert u V ∪ newNodes.toFinset := by
        intro x hx
        rw [succSet, List.mem_toFinset] at hx
        by_cases hxv : x ∈ insert u V
        · exact Finset.mem_union_left _ hxv
        · refine Finset.mem_union_right _ ?_
          rw [List.mem_toFinset, hnew, List.mem_filter]
          exact ⟨hx, by simpa using hxv⟩
      obtain ⟨B', heq, hB'n, hBB', hB'sub, hcover⟩ :=
        ih (B ++ newNodes) (insert u V)
          (fun v hv => hAn v (List.mem_cons_of_mem u hv))
          (fun v hv => (List.mem_append.mp hv).elim (hBn v) (hnewnodes v))
          (fun v hv hvV => by
            rcases Finset.mem_insert.mp hvV with hvu | hvV'
            · subst hvu
              refine hsuccu.trans ?_
              intro x hx
              simp only [Finset.mem_union, List.toFinset_append] at hx ⊢
              rcases hx with h | h
              · exact Or.inl (Or.inl h)
              · exact Or.inr (Or.inr h)
            · refine (hAs v (List.mem_cons_of_mem u hv) hvV').trans ?_
              intro x hx
              simp only [Finset.mem_union, List.toFinset_cons, List.toFinset_append,
                Finset.mem_insert] at hx ⊢
              rcases hx with (h | h | h) | h
              · exact Or.inl (Or.inl (Or.inr h))
              · exact Or.inl (Or.inl (Or.inl h))
              · exact Or.inl (Or.inr h)
              · exact Or.inr (Or.inl h))
      have hVeq : insert u V ∪ A'.toFinset = V ∪ (u :: A').toFinset := by
        rw [List.toFinset_cons]
        ext x
        simp only [Finset.mem_union, Finset.mem_insert]
        tauto
      refine ⟨B', by rw [heq, hVeq], hB'n, ?_, ?_, ?_⟩
      · refine Finset.Subset.trans ?_ hBB'
        rw [List.toFinset_append]
        exact Finset.subset_union_left
      · refine hB'sub.trans ?_
        rw [List.toFinset_append, List.toFinset_cons, succOfSet_insert]
        intro x hx
        simp only [Finset.mem_union] at hx ⊢
        rcases hx with (h | h) | h
        · exact Or.inl h
        · refine Or.inr (Or.inl ?_)
          rw [hnew] at h
          rw [List.mem_toFinset, List.mem_filter] at h
          rw [succSet, List.mem_toFinset]
          exact h.1
        · exact Or.inr (Or.inr h)
      · rw [List.toFinset_cons, succOfSet_insert]
        apply Finset.union_subset
        · refine hsuccu.trans ?_
          intro x hx
          simp only [Finset.mem_union, List.toFinset_cons, Finset.mem_insert] at hx ⊢
          rcases hx with h | h
          · rcases h with h | h
            · exact Or.inl (Or.inr (Or.inl h))
            · exact Or.inl (Or.inl h)
          · refine Or.inr (hBB' ?_)
            rw [List.toFinset_append]
            exact Finset.mem_union_right _ h
        · refine hcover.trans ?_
          intro x hx
          simp only [Finset.mem_union, List.toFinset_cons, Finset.mem_insert] at hx ⊢
          rcases hx with (h | h) | h
          · rcases h with h | h
            · exact Or.inl (Or.inr (Or.inl h))
            · exact Or.inl (Or.inl h)
          · exact Or.inl (Or.inr (Or.inr h))
          · exact Or.inr h

/-- Full BFS run, by induction on the remaining rounds: starting at a round
boundary whose visited-plus-frontier set is exactly the nodes within `l`
hops, the loop computes exactly the nodes within `depth` hops. -/
theorem bfsMain (g : CodeGraph) (depth : Int)
    (hval : ∀ e ∈ g.edges, e.2 ∈ nodeNames g) (s : String)
    (hcast : (depth.toNat : Int) = depth) :
    ∀ (k l : Nat) (A : List String) (V : Finset String),
      l + k = depth.toNat →
      (∀ v ∈ A, v ∈ nodeNames g) →
      V ∪ A.toFinset = reachWithin g s l →
      succOfSet g V ⊆ V ∪ A.toFinset →
      bfsLoop g depth (A.map (fun v => (v, l))) V = reachWithin g s depth.toNat := by
  intro k
  induction k with
  | zero =>
    intro l A V hlk hAn hR hNV
    have hl : ¬(l : Int) < depth := by omega
    have hld : l = depth.toNat := by omega
    rw [bfsFinal g depth l hl A V, hR, hld]
  | succ k ih =>
    intro l A V hlk hAn hR hNV
    have hl : (l : Int) < depth := by omega
    obtain ⟨B', heq, hB'n, _, hB'sub, hcover⟩ :=
      bfsRound g depth l hl hval A [] V hAn (by simp)
        (fun v hv hvV => by
          have h1 : succSet g v ⊆ succOfSet g V :=
            Finset.subset_biUnion_of_mem (succSet g) hvV
          refine (h1.trans hNV).trans ?_
          intro x hx
          exact Finset.mem_union_left _ hx)
    have hB'sub2 : B'.toFinset ⊆ succOfSet g A.toFinset := by
      intro x hx
      have := hB'sub hx
      simpa using this
    rw [List.map_nil, List.append_nil] at heq
    rw [heq]
    have hA_sub : A.toFinset ⊆ reachWithin g s l := hR ▸ Finset.subset_union_right
    have hV_sub : V ⊆ reachWithin g s l := hR ▸ Finset.subset_union_left
    apply ih (l + 1) B' (V ∪ A.toFinset) (by omega) hB'n
    · rw [reachWithin, ← hR, succOfSet_union]
      apply Finset.Subset.antisymm
      · apply Finset.union_subset
        · exact Finset.subset_union_left
        · exact hB'sub2.trans (Finset.subset_union_right.trans Finset.subset_union_right)
      · apply Finset.union_subset
        · exact Finset.subset_union_left
        · apply Finset.union_subset
          · exact hNV.trans Finset.subset_union_left
          · exact hcover
    · rw [succOfSet_union]
      apply Finset.union_subset
      · exact (hNV.trans Finset.subset_union_left)
      · refine hcover.trans ?_
        intro x hx
        rcases Finset.mem_union.mp hx with h | h
        · exact Finset.mem_union_left _ h
        · exact Finset.mem_union_right _ h

/-- C4: GetNeighbors(name, depth) returns the direct successors for depth 1;
for depth > 1 it returns the set of all nodes reachable from name within at
most depth hops (the union over all levels, not only the final frontier),
excluding name itself; for a missing name it returns the empty list. -/
theorem c4_neighbors (g : CodeGraph) (name : String) (depth : Int)
    (hval : ∀ e ∈ g.edges, e.1 ∈ nodeNames g ∧ e.2 ∈ nodeNames g) :
    (name ∉ nodeNames g → getNeighbors g name depth = []) ∧
    (name ∈ nodeNames g → depth = 1 → getNeighbors g name depth = succList g name) ∧
    (name ∈ nodeNames g → 1 < depth →
      (getNeighbors g name depth).toFinset =
        reachWithin g name depth.toNat \ {name}) := by
  refine ⟨fun hmem => ?_, fun hmem hd => ?_, fun hmem hd => ?_⟩
  · rw [getNeighbors, if_neg hmem]
  · rw [getNeighbors, if_pos hmem, if_pos hd]
  · have hne : ¬depth = 1 := by omega
    rw [getNeighbors, if_pos hmem, if_neg hne]
    have hq : [(name, 0)] = [name].map (fun v => (v, 0)) := rfl
    have hcast : (depth.toNat : Int) = depth := Int.toNat_of_nonneg (by omega)
    have hbfs : bfsLoop g depth [(name, 0)] ∅ = reachWithin g name depth.toNat := by
      rw [hq]
      apply bfsMain g depth (fun e he => (hval e he).2) name hcast depth.toNat 0 [name] ∅
        (Nat.zero_add _)
      · intro v hv
        rw [List.mem_singleton] at hv
        exact hv ▸ hmem
      · rw [reachWithin]
        simp
      · rw [succOfSet_empty]
        exact Finset.empty_subset _
    rw [hbfs, Finset.sort_toFinset, Finset.erase_eq]

/-- Witness graph for C4: edges A→B, B→C, A→D as in the specification's
testable property. -/
def gC4 : CodeGraph :=
  { nodes := [("A", emptyAttrs), ("B", emptyAttrs), ("C", emptyAttrs), ("D", emptyAttrs)],
    edges := [("A", "B"), ("B", "C"), ("A", "D")] }

theorem c4_witness :
    ((1 : Int) < 2 ∧ "A" ∈ nodeNames gC4 ∧
      (getNeighbors gC4 "A" 2).toFinset = reachWithin gC4 "A" 2 \ {"A"}) ∧
    getNeighbors gC4 "Z" 2 = [] ∧
    getNeighbors gC4 "A" 1 = succList gC4 "A" :=
  ⟨⟨by decide, by decide,
      by
        have h := (c4_neighbors gC4 "A" 2 (by decide)).2.2 (by decide) (by decide)
        simpa using h⟩,
    (c4_neighbors gC4 "Z" 2 (by decide)).1 (by decide),
    (c4_neighbors gC4 "A" 1 (by decide)).2.1 (by decide) rfl⟩

/-! ## Claim C5: edge-endpoint invariant of the builder -/

/-- Every edge endpoint is a node of the graph. -/
def edgesValid (g : CodeGraph) : Prop :=
  ∀ e ∈ g.edges, e.1 ∈ nodeNames g ∧ e.2 ∈ nodeNames g

theorem edges_graphAddNode (g : CodeGraph) (name : String) (a : GAttrs) :
    (graphAddNode g name a).edges = g.edges := by
  unfold graphAddNode
  split <;> rfl

theorem mem_nodeNames_graphAddNode (g : CodeGraph) (name : String) (a : GAttrs)
    (x : String) :
    x ∈ nodeNames (graphAddNode g name a) ↔ x ∈ nodeNames g ∨ x = name := by
  unfold graphAddNode
  by_cases h : name ∈ nodeNames g
  · rw [if_pos h]
    have hmap : nodeNames
        { g with nodes := g.nodes.map (fun n => if n.1 = name then (n.1, a) else n) } =
        nodeNames g := by
      unfold nodeNames
      rw [List.map_map]
      apply List.map_congr_left
      intro p _
      by_cases hp : p.1 = name <;> simp [hp]
    rw [hmap]
    constructor
    · exact Or.inl
    · rintro (hx | hx)
      · exact hx
      · exact hx ▸ h
  · rw [if_neg h]
    unfold nodeNames
    rw [List.map_append, List.mem_append]
    simp

theorem ensureNode_edges (g : CodeGraph) (u : String) :
    (ensureNode g u).edges = g.edges := by
  unfold ensureNode
  split <;> rfl

theorem mem_ensureNode (g : CodeGraph) (u x : String) :
    x ∈ nodeNames (ensureNode g u) ↔ x ∈ nodeNames g ∨ x = u := by
  unfold ensureNode
  split
  · rename_i h
    constructor
    · exact Or.inl
    · rintro (hx | hx)
      · exact hx
      · exact hx ▸ h
  · unfold nodeNames
    rw [List.map_append, List.mem_append]
    simp

theorem graphAddEdge_edges (g : CodeGraph) (u v : String) :
    (graphAddEdge g u v).edges = g.edges ∨
      (graphAddEdge g u v).edges = g.edges ++ [(u, v)] := by
  unfold graphAddEdge
  split
  · exact Or.inl (by rw [ensureNode_edges, ensureNode_edges])
  · exact Or.inr (by rw [ensureNode_edges, ensureNode_edges])

theorem graphAddEdge_nodes_mono (g : CodeGraph) (u v x : String)
    (h : x ∈ nodeNames g) : x ∈ nodeNames (graphAddEdge g u v) := by
  have hmem : x ∈ nodeNames (ensureNode (ensureNode g u) v) := by
    rw [mem_ensureNode, mem_ensureNode]
    exact Or.inl (Or.inl h)
  unfold graphAddEdge
  split
  · exact hmem
  · exact hmem

theorem graphAddEdge_mem_left (g : CodeGraph) (u v : String) :
    u ∈ nodeNames (graphAddEdge g u v) := by
  have hmem : u ∈ nodeNames (ensureNode (ensureNode g u) v) := by
    rw [mem_ensureNode, mem_ensureNode]
    exact Or.inl (Or.inr rfl)
  unfold graphAddEdge
  split
  · exact hmem
  · exact hmem

theorem graphAddEdge_mem_right (g : CodeGraph) (u v : String) :
    v ∈ nodeNames (graphAddEdge g u v) := by
  have hmem : v ∈ nodeNames (ensureNode (ensureNode g u) v) := by
    rw [mem_ensureNode]
    exact Or.inr rfl
  unfold graphAddEdge
  split
  · exact hmem
  · exact hmem

theorem edgesValid_graphAddEdge (g : CodeGraph) (u v : String)
    (h : edgesValid g) : edgesValid (graphAddEdge g u v) := by
  intro e he
  rcases graphAddEdge_edges g u v with heq | heq
  · rw [heq] at he
    exact ⟨graphAddEdge_nodes_mono g u v _ (h e he).1,
      graphAddEdge_nodes_mono g u v _ (h e he).2⟩
  · rw [heq, List.mem_append] at he
    rcases he with he | he
    · exact ⟨graphAddEdge_nodes_mono g u v _ (h e he).1,
        graphAddEdge_nodes_mono g u v _ (h e he).2⟩
    · rw [List.mem_singleton] at he
      subst he
      exact ⟨graphAddEdge_mem_left g u v, graphAddEdge_mem_right g u v⟩

theorem edgesValid_applyAddNode (g : CodeGraph) (name category relPath : String)
    (startLine endLine : Nat) (info parent : String) (h : edgesValid g) :
    edgesValid (applyAddNode g name category relPath startLine endLine info parent) := by
  unfold applyAddNode
  have hg1 : edgesValid (graphAddNode g name
      { category := category, kind := "def", file := relPath,
        line := (startLine, endLine), info := info }) := by
    intro e he
    rw [edges_graphAddNode] at he
    rw [mem_nodeNames_graphAddNode, mem_nodeNames_graphAddNode]
    exact ⟨Or.inl (h e he).1, Or.inl (h e he).2⟩
  dsimp only
  split
  · exact edgesValid_graphAddEdge _ _ _ hg1
  · exact hg1

theorem edgesValid_applyImportEdge (g : CodeGraph) (fromFile importPath : String)
    (fileMap : List (String × String)) (h : edgesValid g) :
    edgesValid (applyImportEdge g fromFile importPath fileMap) := by
  unfold applyImportEdge
  split
  · exact h
  · dsimp only
    split
    · exact edgesValid_graphAddEdge _ _ _ h
    · exact h

theorem edgesValid_applyBOp (g : CodeGraph) (op : BOp) (h : edgesValid g) :
    edgesValid (applyBOp g op) := by
  cases op with
  | addNode name category relPath startLine endLine language parent info =>
    exact edgesValid_applyAddNode g name category relPath startLine endLine info parent h
  | importEdge fromFile importPath fileMap =>
    exact edgesValid_applyImportEdge g fromFile importPath fileMap h

theorem edgesValid_foldl (ops : List BOp) (g : CodeGraph) (h : edgesValid g) :
    edgesValid (ops.foldl applyBOp g) := by
  induction ops generalizing g with
  | nil => exact h
  | cons op rest ih => exact ih _ (edgesValid_applyBOp g op h)

/-- C5: in every graph produced by a build, every edge's endpoints are
present in the node set; a containment edge-add whose parent endpoint is
missing (or empty) at the time of the call is silently dropped; an import
edge-add changes nothing or appends exactly one edge whose endpoints are
distinct and both already present. -/
theorem c5_edge_invariant :
    (∀ ops : List BOp, edgesValid (buildGraph ops)) ∧
    (∀ (g : CodeGraph) (name category relPath : String) (startLine endLine : Nat)
        (info parent : String),
      parent = "" ∨ (parent ∉ nodeNames g ∧ parent ≠ name) →
      (applyAddNode g name category relPath startLine endLine info parent).edges =
        g.edges) ∧
    (∀ (g : CodeGraph) (fromFile importPath : String)
        (fileMap : List (String × String)),
      (applyImportEdge g fromFile importPath fileMap).edges = g.edges ∨
        ∃ toFile, (applyImportEdge g fromFile importPath fileMap).edges =
            g.edges ++ [(fromFile, toFile)] ∧ fromFile ≠ toFile ∧
            fromFile ∈ nodeNames g ∧ toFile ∈ nodeNames g) := by
  refine ⟨?_, ?_, ?_⟩
  · intro ops
    exact edgesValid_foldl ops emptyCodeGraph (fun e he => absurd he (by simp [emptyCodeGraph]))
  · intro g name category relPath startLine endLine info parent hp
    unfold applyAddNode
    have hcond : ¬(parent ≠ "" ∧ parent ∈ nodeNames (graphAddNode g name
        { category := category, kind := "def", file := relPath,
          line := (startLine, endLine), info := info })) := by
      rintro ⟨hne, hmem⟩
      rcases hp with hp | ⟨hp1, hp2⟩
      · exact hne hp
      · rcases (mem_nodeNames_graphAddNode _ _ _ _).mp hmem with h | h
        · exact hp1 h
        · exact hp2 h
    rw [if_neg hcond, edges_graphAddNode]
  · intro g fromFile importPath fileMap
    unfold applyImportEdge
    split
    · exact Or.inl rfl
    · rename_i rel hres
      dsimp only
      by_cases hcond : fromFile ≠ replaceChar '\\' '/' rel ∧
          fromFile ∈ nodeNames g ∧ replaceChar '\\' '/' rel ∈ nodeNames g
      · rw [if_pos hcond]
        rcases graphAddEdge_edges g fromFile (replaceChar '\\' '/' rel) with h | h
        · exact Or.inl h
        · exact Or.inr ⟨replaceChar '\\' '/' rel, h, hcond.1, hcond.2.1, hcond.2.2⟩
      · rw [if_neg hcond]
        exact Or.inl rfl

/-- Witness for C5: a build with a file node, a contained definition, a
dropped edge to a missing parent, and one import edge. -/
def c5ops : List BOp :=
  [.addNode "a.py" "file" "a.py" 1 3 "python" "" "",
   .addNode "Foo" "class" "a.py" 1 3 "python" "a.py" "",
   .addNode "ghost" "function" "a.py" 2 2 "python" "missing" "",
   .addNode "b.py" "file" "b.py" 1 1 "python" "" "",
   .importEdge "b.py" "a" [("a.py", "a.py")]]

theorem c5_witness :
    (∀ e ∈ (buildGraph c5ops).edges,
      e.1 ∈ nodeNames (buildGraph c5ops) ∧ e.2 ∈ nodeNames (buildGraph c5ops)) ∧
    (applyAddNode emptyCodeGraph "ghost" "function" "a.py" 2 2 "" "missing").edges = [] :=
  ⟨(c5_edge_invariant.1 c5ops : edgesValid (buildGraph c5ops)),
   (c5_edge_invariant.2.1 emptyCodeGraph "ghost" "function" "a.py" 2 2 "" "missing"
      (Or.inr ⟨by decide, by decide⟩))⟩

/-! ## Claims C6 and C10: line-oriented fallback extraction -/

/-- Start line of an assembler call (0 for import edges, which carry none). -/
def BOp.opStartLine : BOp → Nat
  | .addNode _ _ _ s _ _ _ _ => s
  | .importEdge _ _ _ => 0

/-- End line of an assembler call. -/
def BOp.opEndLine : BOp → Nat
  | .addNode _ _ _ _ e _ _ _ => e
  | .importEdge _ _ _ => 0

/-- Category of an assembler call. -/
def BOp.opCategory : BOp → String
  | .addNode _ c _ _ _ _ _ _ => c
  | .importEdge _ _ _ => ""

/-- Declarative reading of "the first matching rule wins": rule i matches
with the captured name, and every earlier rule does not match. -/
def firstMatchSpec (rules : List (String × (String → Option String)))
    (line : String) (c nm : String) : Prop :=
  ∃ i : Nat, ∃ hi : i < rules.length,
    (rules.get ⟨i, hi⟩).1 = c ∧ (rules.get ⟨i, hi⟩).2 line = some nm ∧
    ∀ j (hj : j < i), (rules.get ⟨j, Nat.lt_trans hj hi⟩).2 line = none

theorem firstRuleMatch_iff (rules : List (String × (String → Option String)))
    (line : String) (c nm : String) :
    firstRuleMatch rules line = some (c, nm) ↔ firstMatchSpec rules line c nm := by
  induction rules with
  | nil =>
    simp only [firstRuleMatch, List.findSome?_nil, firstMatchSpec]
    constructor
    · intro h
      exact absurd h (by simp)
    · rintro ⟨i, hi, _⟩
      exact absurd hi (by simp)
  | cons r rs ih =>
    rw [firstRuleMatch, List.findSome?_cons]
    cases hr : r.2 line with
    | some v =>
      simp only [Option.map_some']
      constructor
      · intro h
        rw [Option.some_inj, Prod.mk.injEq] at h
        exact ⟨0, by simp, h.1, h.2 ▸ hr, fun j hj => absurd hj (Nat.not_lt_zero j)⟩
      · rintro ⟨i, hi, hc, hm, hprev⟩
        cases i with
        | zero =>
          rw [List.get] at hc hm
          rw [hr] at hm
          rw [Option.some_inj] at hm
          rw [Option.some_inj, Prod.mk.injEq]
          exact ⟨hc, hm⟩
        | succ i' =>
          have := hprev 0 (Nat.succ_pos i')
          rw [List.get] at this
          exact absurd (hr ▸ this) (by simp)
    | none =>
      simp only [Option.map_none']
      rw [firstRuleMatch] at ih
      rw [ih]
      constructor
      · rintro ⟨i, hi, hc, hm, hprev⟩
        refine ⟨i + 1, Nat.succ_lt_succ hi, hc, hm, ?_⟩
        intro j hj
        cases j with
        | zero => exact hr
        | succ j' => exact hprev j' (Nat.lt_of_succ_lt_succ hj)
      · rintro ⟨i, hi, hc, hm, hprev⟩
        cases i with
        | zero =>
          rw [List.get] at hm
          exact absurd (hr ▸ hm) (by simp)
        | succ i' =>
          refine ⟨i', Nat.lt_of_succ_lt_succ hi, hc, hm, ?_⟩
          intro j hj
          exact hprev (j + 1) (Nat.succ_lt_succ hj)

theorem mem_lineOps (rules : List (String × (String → Option String)))
    (relPath fn lang : String) (n : Nat) (line : String) (op : BOp) :
    op ∈ lineOps rules relPath fn lang n line ↔
      ∃ c nm, firstRuleMatch rules (pyStrip line) = some (c, nm) ∧
        op = BOp.addNode nm (normCategory c) relPath n n lang fn "" := by
  unfold lineOps
  cases hm : firstRuleMatch rules (pyStrip line) with
  | none =>
    simp only [List.not_mem_nil, false_iff]
    rintro ⟨c, nm, hc, _⟩
    exact absurd hc (by simp)
  | some p =>
    rw [List.mem_singleton]
    constructor
    · intro h
      exact ⟨p.1, p.2, rfl, h⟩
    · rintro ⟨c, nm, hc, hop⟩
      rw [Option.some_inj] at hc
      rw [hop, hc]

theorem mem_parseLines (rules : List (String × (String → Option String)))
    (relPath fn lang : String) :
    ∀ (ls : List String) (n : Nat) (op : BOp),
      op ∈ parseLines rules relPath fn lang n ls ↔
        ∃ k, ∃ hk : k < ls.length, ∃ c nm,
          firstRuleMatch rules (pyStrip (ls.get ⟨k, hk⟩)) = some (c, nm) ∧
          op = BOp.addNode nm (normCategory c) relPath (n + k) (n + k) lang fn "" := by
  intro ls
  induction ls with
  | nil =>
    intro n op
    rw [parseLines]
    simp
  | cons line rest ih =>
    intro n op
    rw [parseLines, List.mem_append, mem_lineOps]
    constructor
    · rintro (⟨c, nm, hm, hop⟩ | h)
      · exact ⟨0, by simp, c, nm, by rw [List.get]; exact hm, by rw [hop]; congr 1⟩
      · rcases (ih (n + 1) op).mp h with ⟨k, hk, c, nm, hm, hop⟩
        refine ⟨k + 1, Nat.succ_lt_succ hk, c, nm, ?_, ?_⟩
        · rw [List.get_cons_succ]
          exact hm
        · rw [hop]
          congr 1 <;> omega
    · rintro ⟨k, hk, c, nm, hm, hop⟩
      cases k with
      | zero =>
        left
        rw [List.get] at hm
        exact ⟨c, nm, hm, by rw [hop]; congr 1⟩
      | succ k' =>
        right
        rw [List.get_cons_succ] at hm
        refine (ih (n + 1) op).mpr ⟨k', Nat.lt_of_succ_lt_succ hk, c, nm, hm, ?_⟩
        rw [hop]
        congr 1 <;> omega

theorem parseLines_startLine_lb (rules : List (String × (String → Option String)))
    (relPath fn lang : String) :
    ∀ (ls : List String) (n : Nat) (op : BOp),
      op ∈ parseLines rules relPath fn lang n ls → n ≤ op.opStartLine := by
  intro ls
  induction ls with
  | nil => intro n op h; rw [parseLines] at h; exact absurd h (by simp)
  | cons line rest ih =>
    intro n op h
    rw [parseLines, List.mem_append, mem_lineOps] at h
    rcases h with ⟨c, nm, _, hop⟩ | h
    · rw [hop]
      exact le_refl n
    · exact Nat.le_of_succ_le (ih (n + 1) op h)

theorem parseLines_startLine_nodup (rules : List (String × (String → Option String)))
    (relPath fn lang : String) :
    ∀ (ls : List String) (n : Nat),
      ((parseLines rules relPath fn lang n ls).map BOp.opStartLine).Nodup := by
  intro ls
  induction ls with
  | nil => intro n; rw [parseLines]; simp
  | cons line rest ih =>
    intro n
    rw [parseLines, List.map_append, List.nodup_append]
    refine ⟨?_, ih (n + 1), ?_⟩
    · unfold lineOps
      cases hm : firstRuleMatch rules (pyStrip line) <;> simp
    · intro s hs hs'
      rcases List.mem_map.mp hs with ⟨op, hop, hsop⟩
      rcases List.mem_map.mp hs' with ⟨op', hop', hsop'⟩
      rcases (mem_lineOps rules relPath fn lang n line op).mp hop with ⟨c, nm, _, hopeq⟩
      have hlb := parseLines_startLine_lb rules relPath fn lang rest (n + 1) op' hop'
      rw [hsop'] at hlb
      rw [← hsop, hopeq] at hlb
      simp only [BOp.opStartLine] at hlb
      omega

/-- C6: line-oriented fallback extraction tests each line against the rule
list, the first matching rule wins, at most one definition node is produced
per line, and every node's line range equals its single 1-based declaration
line. -/
theorem c6_fallback (rules : List (String × (String → Option String)))
    (lines : List String) (relPath fn lang : String) :
    (∀ op : BOp, op ∈ parseWithRegex rules lines relPath fn lang ↔
      ∃ k, ∃ hk : k < lines.length, ∃ c nm,
        firstRuleMatch rules (pyStrip (lines.get ⟨k, hk⟩)) = some (c, nm) ∧
        op = BOp.addNode nm (normCategory c) relPath (k + 1) (k + 1) lang fn "") ∧
    ((parseWithRegex rules lines relPath fn lang).map BOp.opStartLine).Nodup ∧
    (∀ (line c nm : String), firstRuleMatch rules line = some (c, nm) ↔
      firstMatchSpec rules line c nm) := by
  refine ⟨?_, ?_, fun line c nm => firstRuleMatch_iff rules line c nm⟩
  · intro op
    rw [parseWithRegex, mem_parseLines]
    constructor
    · rintro ⟨k, hk, c, nm, hm, hop⟩
      exact ⟨k, hk, c, nm, hm, by rw [hop]; congr 1 <;> omega⟩
    · rintro ⟨k, hk, c, nm, hm, hop⟩
      exact ⟨k, hk, c, nm, hm, by rw [hop]; congr 1 <;> omega⟩
  · rw [parseWithRegex]
    exact parseLines_startLine_nodup rules relPath fn lang lines 1

/-- Witness rule table for C6: both rules match the first line; only the
first fires. -/
def c6rules : List (String × (String → Option String)) :=
  [("class", fun l => if l = "class A:" then some "A" else none),
   ("function", fun l => if l = "class A:" then some "AA"
     else if l = "def f():" then some "f" else none)]

theorem c6_witness :
    (BOp.addNode "A" "class" "m.x" 1 1 "misc" "m.x" "" ∈
        parseWithRegex c6rules ["class A:", "def f():"] "m.x" "m.x" "misc") ∧
    (parseWithRegex c6rules ["class A:", "def f():"] "m.x" "m.x" "misc").length = 2 ∧
    firstMatchSpec c6rules "def f():" "function" "f" :=
  ⟨((c6_fallback c6rules ["class A:", "def f():"] "m.x" "m.x" "misc").1 _).mpr
      ⟨0, by decide, "class", "A", by decide, by decide⟩,
    by decide,
    ((c6_fallback c6rules ["def f():"] "x" "x" "misc").2.2 "def f():" "function" "f").mp
      (by decide)⟩

/-- The normalizer never outputs "method" or "const": those two values are
exactly the ones it maps to "function". -/
theorem normCategory_ne (category : String) :
    normCategory category ≠ "method" ∧ normCategory category ≠ "const" := by
  unfold normCategory
  by_cases h : (splitOnChar '_' category).headD "" = "const" ∨
      (splitOnChar '_' category).headD "" = "method"
  · rw [if_pos h]
    exact ⟨by decide, by decide⟩
  · rw [if_neg h]
    push_neg at h
    exact ⟨h.2, h.1⟩

/-- C10: every node produced by the line-oriented fallback path carries the
normalized category (text before the first underscore, with "const" and
"method" collapsed to "function"), so no fallback node ever has category
"method" or "const"; the grammar-aware Python pass does emit "method". -/
theorem c10_normalization :
    (∀ (rules : List (String × (String → Option String))) (lines : List String)
        (relPath fn lang : String) (op : BOp),
      op ∈ parseWithRegex rules lines relPath fn lang →
        (∃ c, BOp.opCategory op = normCategory c) ∧
        BOp.opCategory op ≠ "method" ∧ BOp.opCategory op ≠ "const") ∧
    (∃ op ∈ pythonExtract [.classDef "C" 1 (some 2) [.funcDef "m" 2 (some 2) []]]
        "a.py" "a.py", BOp.opCategory op = "method") := by
  constructor
  · intro rules lines relPath fn lang op hop
    rw [parseWithRegex, mem_parseLines] at hop
    rcases hop with ⟨k, hk, c, nm, _, hop⟩
    rw [hop]
    refine ⟨⟨c, rfl⟩, ?_⟩
    exact normCategory_ne c
  · refine ⟨BOp.addNode "C.m" "method" "a.py" 2 2 "python" "C" "", ?_, rfl⟩
    have : pythonExtract [.classDef "C" 1 (some 2) [.funcDef "m" 2 (some 2) []]]
        "a.py" "a.py" =
        [.addNode "C" "class" "a.py" 1 2 "python" "a.py" "m",
         .addNode "C.m" "method" "a.py" 2 2 "python" "C" ""] := by decide
    rw [this]
    decide

/-- Witness for C10: a rule category "const_func" is normalized to
"function" on the produced node. -/
theorem c10_witness :
    (∃ c, BOp.opCategory (BOp.addNode "f" (normCategory "const_func") "m.x" 1 1
        "misc" "m.x" "") = normCategory c) ∧
    BOp.opCategory (BOp.addNode "f" (normCategory "const_func") "m.x" 1 1
        "misc" "m.x" "") ≠ "method" ∧
    BOp.opCategory (BOp.addNode "f" (normCategory "const_func") "m.x" 1 1
        "misc" "m.x" "") ≠ "const" :=
  c10_normalization.1 [("const_func", fun _ => some "f")] ["const f = x =>"]
    "m.x" "m.x" "misc" _
    (((c6_fallback [("const_func", fun _ => some "f")] ["const f = x =>"]
        "m.x" "m.x" "misc").1 _).mpr ⟨0, by decide, "const_func", "f", by decide, rfl⟩)

/-! ## Claim C2: import resolution order -/

theorem find?_eq_some_idx {α : Type} (p : α → Bool) :
    ∀ (l : List α) (a : α),
      l.find? p = some a ↔ ∃ ki, ∃ hki : ki < l.length, l.get ⟨ki, hki⟩ = a ∧
        p a = true ∧ ∀ kj (h : kj < ki), p (l.get ⟨kj, Nat.lt_trans h hki⟩) = false := by
  intro l
  induction l with
  | nil =>
    intro a
    simp only [List.find?_nil]
    constructor
    · intro h
      exact absurd h (by simp)
    · rintro ⟨ki, hki, _⟩
      exact absurd hki (by simp)
  | cons x xs ih =>
    intro a
    rw [List.find?_cons]
    cases hx : p x with
    | true =>
      constructor
      · intro h
        rw [Option.some_inj] at h
        exact ⟨0, by simp, h, h ▸ hx, fun kj hj => absurd hj (Nat.not_lt_zero kj)⟩
      · rintro ⟨ki, hki, hget, hpa, hprev⟩
        cases ki with
        | zero =>
          rw [List.get] at hget
          rw [hget]
        | succ ki' =>
          have h0 := hprev 0 (Nat.succ_pos ki')
          rw [List.get] at h0
          rw [hx] at h0
          exact absurd h0 (by simp)
    | false =>
      rw [ih a]
      constructor
      · rintro ⟨ki, hki, hget, hpa, hprev⟩
        refine ⟨ki + 1, Nat.succ_lt_succ hki, hget, hpa, ?_⟩
        intro kj hj
        cases kj with
        | zero => exact hx
        | succ kj' => exact hprev kj' (Nat.lt_of_succ_lt_succ hj)
      · rintro ⟨ki, hki, hget, hpa, hprev⟩
        cases ki with
        | zero =>
          rw [List.get] at hget
          rw [hget] at hx
          rw [hpa] at hx
          exact absurd hx (by simp)
        | succ ki' =>
          refine ⟨ki', Nat.lt_of_succ_lt_succ hki, hget, hpa, ?_⟩
          intro kj hj
          exact hprev (kj + 1) (Nat.succ_lt_succ hj)

/-- Declarative reading of the resolver's double loop: some candidate `ci`
matches the file-map entry `ki`, no earlier candidate matches any entry at
all, and no earlier entry matches candidate `ci`. -/
def importResolutionSpec (fm : List (String × String)) (cands : List String)
    (v : String) : Prop :=
  ∃ ci, ∃ hci : ci < cands.length, ∃ ki, ∃ hki : ki < fm.length,
    keyMatches (fm.get ⟨ki, hki⟩).1 (cands.get ⟨ci, hci⟩) = true ∧
    v = (fm.get ⟨ki, hki⟩).2 ∧
    (∀ ci' (h' : ci' < ci), ∀ kv ∈ fm,
      keyMatches kv.1 (cands.get ⟨ci', Nat.lt_trans h' hci⟩) = false) ∧
    (∀ ki' (h' : ki' < ki),
      keyMatches (fm.get ⟨ki', Nat.lt_trans h' hki⟩).1 (cands.get ⟨ci, hci⟩) = false)

theorem findSomeResolve_iff (fm : List (String × String)) :
    ∀ (cands : List String) (v : String),
      cands.findSome? (fun c => (fm.find? (fun kv => keyMatches kv.1 c)).map Prod.snd) =
          some v ↔
        importResolutionSpec fm cands v := by
  intro cands
  induction cands with
  | nil =>
    intro v
    simp only [List.findSome?_nil, importResolutionSpec]
    constructor
    · intro h
      exact absurd h (by simp)
    · rintro ⟨ci, hci, _⟩
      exact absurd hci (by simp)
  | cons c cs ih =>
    intro v
    rw [List.findSome?_cons]
    cases hf : fm.find? (fun kv => keyMatches kv.1 c) with
    | some kv =>
      simp only [Option.map_some']
      rcases (find?_eq_some_idx _ fm kv).mp hf with ⟨ki, hki, hget, hpkv, hkprev⟩
      constructor
      · intro h
        rw [Option.some_inj] at h
        refine ⟨0, by simp, ki, hki, ?_, ?_, ?_, ?_⟩
        · rw [List.get, hget]
          exact hpkv
        · rw [← h, hget]
        · intro ci' h'
          exact absurd h' (Nat.not_lt_zero ci')
        · intro ki' h'
          rw [List.get]
          exact hkprev ki' h'
      · rintro ⟨ci, hci, ki2, hki2, hmatch, hv, hcprev, hkprev2⟩
        cases ci with
        | zero =>
          rw [List.get] at hmatch hkprev2
          have hsome : fm.find? (fun x => keyMatches x.1 c) =
              some (fm.get ⟨ki2, hki2⟩) :=
            (find?_eq_some_idx _ fm _).mpr
              ⟨ki2, hki2, rfl, hmatch, fun kj h => hkprev2 kj h⟩
          rw [hf, Option.some_inj] at hsome
          rw [Option.some_inj, hv, ← hsome]
        | succ ci' =>
          have h0 := hcprev 0 (Nat.succ_pos ci') kv (List.mem_of_find?_eq_some hf)
          rw [List.get] at h0
          have := List.find?_some hf
          rw [h0] at this
          exact absurd this (by simp)
    | none =>
      simp only [Option.map_none']
      rw [ih v]
      have hnone : ∀ kv ∈ fm, keyMatches kv.1 c = false := by
        intro kv hkv
        have := List.find?_eq_none.mp hf kv hkv
        simpa using this
      constructor
      · rintro ⟨ci, hci, ki, hki, hmatch, hv, hcprev, hkprev⟩
        refine ⟨ci + 1, Nat.succ_lt_succ hci, ki, hki, ?_, hv, ?_, ?_⟩
        · rw [List.get_cons_succ]
          exact hmatch
        · intro ci' h' kv hkv
          cases ci' with
          | zero => exact hnone kv hkv
          | succ c2 =>
            rw [List.get_cons_succ]
            exact hcprev c2 (Nat.lt_of_succ_lt_succ h') kv hkv
        · intro ki' h'
          rw [List.get_cons_succ]
          exact hkprev ki' h'
      · rintro ⟨ci, hci, ki, hki, hmatch, hv, hcprev, hkprev⟩
        cases ci with
        | zero =>
          rw [List.get] at hmatch
          have := hnone (fm.get ⟨ki, hki⟩) (List.get_mem fm ki hki)
          rw [hmatch] at this
          exact absurd this (by simp)
        | succ ci' =>
          rw [List.get_cons_succ] at hmatch hkprev
          refine ⟨ci', Nat.lt_of_succ_lt_succ hci, ki, hki, hmatch, hv, ?_, hkprev⟩
          intro c2 h' kv hkv
          have := hcprev (c2 + 1) (Nat.succ_lt_succ h') kv hkv
          rw [List.get_cons_succ] at this
          exact this

/-- Counterexample to C2 as stated: for the extracted raw import target
"./b" (a relative JavaScript import), generating the candidates from the raw
target as the claim words it picks the entry "a/b", while the code first
strips "./" and therefore picks the entry "ba".  The two resolutions differ,
so candidate generation does not start from the raw target. -/
theorem c2_counterexample :
    resolveImport [("ba", "x"), ("a/b", "y")] "./b" = some "x" ∧
    specResolveImport [("ba", "x"), ("a/b", "y")] "./b" = some "y" ∧
    resolveImport [("ba", "x"), ("a/b", "y")] "./b" ≠
      specResolveImport [("ba", "x"), ("a/b", "y")] "./b" :=
  ⟨by decide, by decide, by decide⟩

/-- C2 (amended): candidates are generated from the cleaned import target
(leading and trailing '.' and '/' characters stripped, backslashes replaced
by '/'), in the order: cleaned target, cleaned target with '.' replaced by
'/', last '.'-delimited segment, last '/'-delimited segment; each candidate
is matched by substring containment or suffix against the file-index keys;
the first index entry matching the first candidate that matches anything
wins; at most one import edge is produced per import occurrence. -/
theorem c2_import_resolution :
    (∀ (fileMap : List (String × String)) (rawTarget : String),
      resolveImport fileMap rawTarget =
        specResolveImport fileMap (cleanImportPath rawTarget)) ∧
    (∀ (fileMap : List (String × String)) (rawTarget v : String),
      resolveImport fileMap rawTarget = some v ↔
        importResolutionSpec fileMap
          (importCandidates (cleanImportPath rawTarget)) v) ∧
    (∀ (g : CodeGraph) (fromFile rawTarget : String)
        (fileMap : List (String × String)),
      ∃ new, (applyImportEdge g fromFile rawTarget fileMap).edges = g.edges ++ new ∧
        new.length ≤ 1) := by
  refine ⟨fun fm raw => rfl, fun fm raw v => findSomeResolve_iff fm _ v, ?_⟩
  intro g fromFile raw fm
  unfold applyImportEdge
  split
  · exact ⟨[], by simp, by simp⟩
  · rename_i rel hres
    dsimp only
    by_cases hcond : fromFile ≠ replaceChar '\\' '/' rel ∧
        fromFile ∈ nodeNames g ∧ replaceChar '\\' '/' rel ∈ nodeNames g
    · rw [if_pos hcond]
      rcases graphAddEdge_edges g fromFile (replaceChar '\\' '/' rel) with h | h
      · exact ⟨[], by rw [h]; simp, by simp⟩
      · exact ⟨[(fromFile, replaceChar '\\' '/' rel)], h, by simp⟩
    · rw [if_neg hcond]
      exact ⟨[], by simp, by simp⟩

theorem c2_witness :
    importResolutionSpec [("ba", "x"), ("a/b", "y")]
      (importCandidates (cleanImportPath "./b")) "x" ∧
    (∃ new, (applyImportEdge emptyCodeGraph "c.js" "./b" [("ba", "x")]).edges =
        emptyCodeGraph.edges ++ new ∧ new.length ≤ 1) :=
  ⟨(c2_import_resolution.2.1 [("ba", "x"), ("a/b", "y")] "./b" "x").mp (by decide),
   c2_import_resolution.2.2 emptyCodeGraph "c.js" "./b" [("ba", "x")]⟩

/-! ## Claim C3: file-scope functions in the Python pass -/

theorem mem_walkFuel_self :
    ∀ (f : Nat) (q : List PyStmt), stmtSizeList q ≤ f → ∀ x ∈ q, x ∈ walkFuel f q := by
  intro f
  induction f with
  | zero =>
    intro q hq x hx
    cases q with
    | nil => exact absurd hx (by simp)
    | cons s rest => exact absurd hq (by have := sum_cons_pos s rest; omega)
  | succ f ih =>
    intro q hq x hx
    cases q with
    | nil => exact absurd hx (by simp)
    | cons s rest =>
      rw [walkFuel]
      rcases List.mem_cons.mp hx with h | h
      · exact h ▸ List.mem_cons_self _ _
      · refine List.mem_cons_of_mem _ (ih (rest ++ childStmts s) ?_ x ?_)
        · have := sum_step_le s rest
          omega
        · exact List.mem_append_left _ h

theorem mem_walkA_self (q : List PyStmt) (x : PyStmt) (hx : x ∈ q) : x ∈ walkA q :=
  mem_walkFuel_self (stmtSizeList q) q (le_refl _) x hx

/-- A direct class-body member is in particular a class descendant. -/
theorem direct_member_descendant (s : PyStmt) (tree : List PyStmt)
    (h : isDirectClassMember s tree = true) : occursUnderClass s tree = true := by
  unfold isDirectClassMember at h
  unfold occursUnderClass
  rw [List.any_eq_true] at h ⊢
  rcases h with ⟨c, hc, hm⟩
  refine ⟨c, hc, ?_⟩
  cases c with
  | classDef n l e body =>
    simp only at hm ⊢
    have hmem : s ∈ body := by
      have h1 : body.elem s = true := hm
      exact (List.elem_iff).mp h1
    have : (walkA body).elem s = true := List.elem_iff.mpr (mem_walkA_self body s hmem)
    exact this
  | funcDef n l e body => exact absurd hm (by simp)
  | asyncFuncDef n l e body => exact absurd hm (by simp)
  | other body => exact absurd hm (by simp)

theorem opCategory_methodOpsOf (relPath cls : String) (body : List PyStmt) (op : BOp)
    (h : op ∈ methodOpsOf relPath cls body) : BOp.opCategory op = "method" := by
  unfold methodOpsOf at h
  rcases List.mem_filterMap.mp h with ⟨m, _, hsome⟩
  cases m with
  | classDef n l e b => exact absurd hsome (by simp)
  | funcDef n l e b =>
    rw [Option.some_inj] at hsome
    rw [← hsome]
    rfl
  | asyncFuncDef n l e b =>
    rw [Option.some_inj] at hsome
    rw [← hsome]
    rfl
  | other b => exact absurd hsome (by simp)

/-- The module used to refute C3: a function `g` nested inside method `m` of
class `C` — a descendant of a class, but not a direct member of any class
body. -/
def c3tree : List PyStmt :=
  [.classDef "C" 1 (some 5) [.funcDef "m" 2 (some 5) [.funcDef "g" 3 (some 4) []]]]

/-- Counterexample to C3 as stated: `g` is a descendant of class `C`
(it sits inside method `m`), yet the extractor takes it as a file-scope
function node, because its ancestor test only checks direct membership in
some class's body list. -/
theorem c3_counterexample :
    BOp.addNode "g" "function" "a.py" 3 4 "python" "a.py" "" ∈
      pythonExtract c3tree "a.py" "a.py" ∧
    occursUnderClass (.funcDef "g" 3 (some 4) []) c3tree = true ∧
    PyStmt.funcDef "g" 3 (some 4) [] ∈ walkA c3tree :=
  ⟨by decide, by decide, by decide⟩

/-- C3 (amended): the grammar-aware pass takes a walked (async) function
definition as a file-scope function node if and only if it is not a direct
element of any class definition's body list anywhere in the file; in
particular every function that is not a descendant of any class is taken,
but a deeper-nested class descendant may be taken as well. -/
theorem c3_file_scope (tree : List PyStmt) (relPath fn nm : String) (a b : Nat) :
    (BOp.addNode nm "function" relPath a b "python" fn "" ∈
        pythonExtract tree relPath fn ↔
      ∃ s ∈ walkA tree, ∃ e body,
        (s = PyStmt.funcDef nm a e body ∨ s = PyStmt.asyncFuncDef nm a e body) ∧
        b = e.getD a ∧ isDirectClassMember s tree = false) ∧
    (∀ s ∈ walkA tree, ∀ e body,
      (s = PyStmt.funcDef nm a e body ∨ s = PyStmt.asyncFuncDef nm a e body) →
      b = e.getD a →
      occursUnderClass s tree = false →
      BOp.addNode nm "function" relPath a b "python" fn "" ∈
        pythonExtract tree relPath fn) := by
  have hmain : BOp.addNode nm "function" relPath a b "python" fn "" ∈
      pythonExtract tree relPath fn ↔
      ∃ s ∈ walkA tree, ∃ e body,
        (s = PyStmt.funcDef nm a e body ∨ s = PyStmt.asyncFuncDef nm a e body) ∧
        b = e.getD a ∧ isDirectClassMember s tree = false := by
    unfold pythonExtract
    rw [List.mem_flatMap]
    constructor
    · rintro ⟨s, hs, hop⟩
      cases s with
      | classDef n l e body =>
        rw [stmtOps, List.mem_cons] at hop
        rcases hop with hop | hop
        · exact absurd (congrArg BOp.opCategory hop) (by simp [BOp.opCategory])
        · have := opCategory_methodOpsOf relPath n body _ hop
          simp [BOp.opCategory] at this
      | funcDef n l e body =>
        rw [stmtOps] at hop
        by_cases hdm : isDirectClassMember (.funcDef n l e body) tree = true
        · rw [if_pos hdm] at hop
          exact absurd hop (by simp)
        · rw [if_neg hdm, List.mem_singleton, BOp.addNode.injEq] at hop
          refine ⟨.funcDef n l e body, hs, e, body, ?_, ?_, ?_⟩
          · left
            rw [hop.1, hop.2.2.2.1]
          · rw [hop.2.2.2.2.1, hop.2.2.2.1]
          · simpa using hdm
      | asyncFuncDef n l e body =>
        rw [stmtOps] at hop
        by_cases hdm : isDirectClassMember (.asyncFuncDef n l e body) tree = true
        · rw [if_pos hdm] at hop
          exact absurd hop (by simp)
        · rw [if_neg hdm, List.mem_singleton, BOp.addNode.injEq] at hop
          refine ⟨.asyncFuncDef n l e body, hs, e, body, ?_, ?_, ?_⟩
          · right
            rw [hop.1, hop.2.2.2.1]
          · rw [hop.2.2.2.2.1, hop.2.2.2.1]
          · simpa using hdm
      | other body =>
        rw [stmtOps] at hop
        exact absurd hop (by simp)
    · rintro ⟨s, hs, e, body, hshape, hb, hdm⟩
      refine ⟨s, hs, ?_⟩
      rcases hshape with hshape | hshape
      · subst hshape
        rw [stmtOps, if_neg (by rw [hdm]; exact Bool.false_ne_true), List.mem_singleton,
          hb]
      · subst hshape
        rw [stmtOps, if_neg (by rw [hdm]; exact Bool.false_ne_true), List.mem_singleton,
          hb]
  refine ⟨hmain, ?_⟩
  intro s hs e body hshape hb hocc
  refine hmain.mpr ⟨s, hs, e, body, hshape, hb, ?_⟩
  cases hdm : isDirectClassMember s tree with
  | false => rfl
  | true => exact absurd (direct_member_descendant s tree hdm) (by rw [hocc]; simp)

theorem c3_witness :
    BOp.addNode "f" "function" "b.py" 1 2 "python" "b.py" "" ∈
      pythonExtract [.funcDef "f" 1 (some 2) []] "b.py" "b.py" :=
  (c3_file_scope [.funcDef "f" 1 (some 2) []] "b.py" "b.py" "f" 1 2).2
    (.funcDef "f" 1 (some 2) []) (by decide) (some 2) [] (Or.inl rfl) (by decide)
    (by decide)

/-! ## Claim C7: visualization export -/

theorem sortPair_swap (a b : String) : sortPair (a, b) = sortPair (b, a) := by
  unfold sortPair
  by_cases hab : a ≤ b
  · by_cases hba : b ≤ a
    · rw [if_pos hab, if_pos hba, le_antisymm hab hba]
    · rw [if_pos hab, if_neg hba]
  · have hba : b ≤ a := le_of_not_le hab
    rw [if_neg hab, if_pos hba]

theorem visLinks_endpoints (names : List String) :
    ∀ (edges : List (String × String)) (seen : List (String × String)),
      ∀ l ∈ visLinks names edges seen, l.1 ∈ names ∧ l.2 ∈ names := by
  intro edges
  induction edges with
  | nil => intro seen l hl; rw [visLinks] at hl; exact absurd hl (by simp)
  | cons e rest ih =>
    intro seen l hl
    rw [visLinks] at hl
    by_cases hin : e.1 ∈ names ∧ e.2 ∈ names
    · rw [if_pos hin] at hl
      by_cases hseen : sortPair e ∈ seen
      · rw [if_pos hseen] at hl
        exact ih seen l hl
      · rw [if_neg hseen, List.mem_cons] at hl
        rcases hl with hl | hl
        · exact hl ▸ hin
        · exact ih _ l hl
    · rw [if_neg hin] at hl
      exact ih seen l hl

theorem visLinks_nodup (names : List String) :
    ∀ (edges : List (String × String)) (seen : List (String × String)),
      ((visLinks names edges seen).map sortPair).Nodup ∧
      ∀ p ∈ (visLinks names edges seen).map sortPair, p ∉ seen := by
  intro edges
  induction edges with
  | nil =>
    intro seen
    rw [visLinks]
    exact ⟨by simp, by simp⟩
  | cons e rest ih =>
    intro seen
    rw [visLinks]
    by_cases hin : e.1 ∈ names ∧ e.2 ∈ names
    · rw [if_pos hin]
      by_cases hseen : sortPair e ∈ seen
      · rw [if_pos hseen]
        exact ih seen
      · rw [if_neg hseen, List.map_cons]
        obtain ⟨hnd, hns⟩ := ih (sortPair e :: seen)
        refine ⟨List.nodup_cons.mpr ⟨?_, hnd⟩, ?_⟩
        · intro hc
          exact hns _ hc (List.mem_cons_self _ _)
        · intro p hp
          rw [List.mem_cons] at hp
          rcases hp with hp | hp
          · exact hp ▸ hseen
          · intro hc
            exact hns p hp (List.mem_cons_of_mem _ hc)
    · rw [if_neg hin]
      exact ih seen

theorem visLinks_covers (names : List String) :
    ∀ (edges : List (String × String)) (seen : List (String × String))
      (e : String × String), e ∈ edges → e.1 ∈ names → e.2 ∈ names →
      sortPair e ∈ seen ∨ sortPair e ∈ (visLinks names edges seen).map sortPair := by
  intro edges
  induction edges with
  | nil => intro seen e he; exact absurd he (by simp)
  | cons e' rest ih =>
    intro seen e he h1 h2
    rw [visLinks]
    rcases List.mem_cons.mp he with he | he
    · subst he
      rw [if_pos ⟨h1, h2⟩]
      by_cases hseen : sortPair e ∈ seen
      · exact Or.inl hseen
      · rw [if_neg hseen, List.map_cons]
        exact Or.inr (List.mem_cons_self _ _)
    · by_cases hin : e'.1 ∈ names ∧ e'.2 ∈ names
      · rw [if_pos hin]
        by_cases hseen : sortPair e' ∈ seen
        · rw [if_pos hseen]
          exact ih seen e he h1 h2
        · rw [if_neg hseen, List.map_cons]
          rcases ih (sortPair e' :: seen) e he h1 h2 with h | h
          · rcases List.mem_cons.mp h with h | h
            · exact Or.inr (h ▸ List.mem_cons_self _ _)
            · exact Or.inl h
          · exact Or.inr (List.mem_cons_of_mem _ h)
      · rw [if_neg hin]
        exact ih seen e he h1 h2

/-- C7: the visualization export emits at most one link per unordered
endpoint pair; every emitted link's endpoints are exported nodes; and when
both directions of an edge are present with exported endpoints, exactly one
link with that unordered pair is emitted. -/
theorem count_eq_one_of_nodup_mem {α : Type} [BEq α] [LawfulBEq α] {l : List α}
    {a : α} (hnd : l.Nodup) (hm : a ∈ l) : l.count a = 1 := by
  induction l with
  | nil => exact absurd hm (by simp)
  | cons x t ih =>
    rw [List.count_cons]
    rcases List.mem_cons.mp hm with h | h
    · subst h
      have hnotin : a ∉ t := (List.nodup_cons.mp hnd).1
      rw [List.count_eq_zero.mpr hnotin]
      simp
    · have hne : (x == a) = false := by
        rw [beq_eq_false_iff_ne]
        intro hc
        exact (List.nodup_cons.mp hnd).1 (hc ▸ h)
      rw [ih (List.nodup_cons.mp hnd).2 h, hne]
      simp

theorem c7_vis_dedup (g : CodeGraph) (tags : List Tag) (filesOnly : Bool) :
    ((visExport g tags filesOnly).2.map sortPair).Nodup ∧
    (∀ e ∈ (visExport g tags filesOnly).2,
      e.1 ∈ (visExport g tags filesOnly).1.map VisNode.id ∧
      e.2 ∈ (visExport g tags filesOnly).1.map VisNode.id) ∧
    (∀ a b : String, (a, b) ∈ g.edges → (b, a) ∈ g.edges →
      a ∈ (visExport g tags filesOnly).1.map VisNode.id →
      b ∈ (visExport g tags filesOnly).1.map VisNode.id →
      ((visExport g tags filesOnly).2.map sortPair).count (sortPair (a, b)) = 1) := by
  refine ⟨(visLinks_nodup _ g.edges []).1, ?_, ?_⟩
  · intro e he
    exact visLinks_endpoints _ g.edges [] e he
  · intro a b hab hba ha hb
    have hmem : sortPair (a, b) ∈ (visExport g tags filesOnly).2.map sortPair := by
      rcases visLinks_covers _ g.edges [] (a, b) hab ha hb with h | h
      · exact absurd h (by simp)
      · exact h
    have hnd : ((visExport g tags filesOnly).2.map sortPair).Nodup :=
      (visLinks_nodup ((buildVisNodes (visNodeSource g tags filesOnly) []).map
        VisNode.id) g.edges []).1
    exact count_eq_one_of_nodup_mem hnd hmem

/-- Witness graph for C7: a bidirectional pair of file nodes. -/
def gC7 : CodeGraph :=
  { nodes := [("A", { category := "file", kind := "def", file := "A", line := (1, 1), info := "" }),
              ("B", { category := "file", kind := "def", file := "B", line := (1, 1), info := "" })],
    edges := [("A", "B"), ("B", "A")] }

theorem c7_witness :
    ((visExport gC7 [] true).2.map sortPair).count (sortPair ("A", "B")) = 1 ∧
    ∀ e ∈ (visExport gC7 [] true).2,
      e.1 ∈ (visExport gC7 [] true).1.map VisNode.id ∧
      e.2 ∈ (visExport gC7 [] true).1.map VisNode.id :=
  ⟨(c7_vis_dedup gC7 [] true).2.2 "A" "B" (by decide) (by decide) (by decide) (by decide),
   (c7_vis_dedup gC7 [] true).2.1⟩

/-! ## Claim C8: malformed-input recovery -/

/-- C8: when the grammar-aware Python parse fails (ast.parse raising is
modelled as the parser returning none), _parse_file still produces the file
node — created before any definition extraction — followed by exactly the
line-oriented fallback definitions; the failure never escapes as an error
(parseFile is total). -/
theorem c8_parse_fallback (pyParse : String → Option (List PyStmt))
    (table : String → List (String × (String → Option String)))
    (relPath code : String) (hfail : pyParse code = none) :
    parseFile pyParse table "python" relPath code =
      BOp.addNode (replaceChar '\\' '/' relPath) "file" relPath 1
          (pySplitlines code).length "python" "" "" ::
        parseWithRegex (table "python") (pySplitlines code) relPath
          (replaceChar '\\' '/' relPath) "python" := by
  unfold parseFile
  dsimp only
  rw [if_pos rfl, hfail]

/-- Witness for C8: a parser that always fails, on a two-line file. -/
theorem c8_witness :
    (fun _ : String => (none : Option (List PyStmt))) "def f(:" = none ∧
    parseFile (fun _ => none) (fun _ => c6rules) "python" "a.py" "def f(:\nx = 1" =
      BOp.addNode "a.py" "file" "a.py" 1 2 "python" "" "" ::
        parseWithRegex c6rules ["def f(:", "x = 1"] "a.py" "a.py" "python" :=
  ⟨rfl, by
    have h := c8_parse_fallback (fun _ => none) (fun _ => c6rules) "a.py"
      "def f(:\nx = 1" rfl
    rw [h]
    decide⟩

/-- The specification's own index example: records def A, ref B, def C for
the same name. -/
def c1tagA : Tag :=
  { name := "X", kind := "def", category := "class", relFname := "a.py",
    line := (1, 1), info := "A" }

def c1tagB : Tag :=
  { name := "X", kind := "ref", category := "class", relFname := "a.py",
    line := (2, 2), info := "B" }

def c1tagC : Tag :=
  { name := "X", kind := "def", category := "class", relFname := "a.py",
    line := (3, 3), info := "C" }

theorem c1_witness :
    (buildNodeIndex [c1tagA, c1tagB, c1tagC] "X" =
      (([c1tagA, c1tagB, c1tagC].filter
          (fun x => x.name == "X" && x.kind == "def")).getLast?).orElse
        (fun _ => ([c1tagA, c1tagB, c1tagC].filter (fun x => x.name == "X")).head?) ∧
      (getNode [c1tagA, c1tagB, c1tagC] "X" = none ↔
        ∀ t ∈ [c1tagA, c1tagB, c1tagC], t.name ≠ "X")) ∧
    buildNodeIndex [c1tagA, c1tagB, c1tagC] "X" = some c1tagC :=
  ⟨c1_name_index [c1tagA, c1tagB, c1tagC] "X", by decide⟩
